import Mathlib

/-! # projectQUIC: the demo server, its payload generator and the echo example

A shallow embedding of `QuicServer/my_server.go` and
`QuicServer/echo/echo_server.go`.

Conventions of the embedding:

* a Go `[]byte` is a `List Nat` whose entries are below 256;
* a Go `string` the code takes apart (a request URI, a flag value, an
  address) is a `List Char`: the code compares its bytes with ASCII
  characters only; a string that is only passed on or compared as a whole (a
  method name, an error message) is a `String`;
* `uint64` arithmetic is arithmetic on `Nat` reduced modulo `2 ^ 64`;
* a run-time panic is the result `none`.
-/

namespace QuicServer

/-! ## generatePRData (my_server.go, lines 45-54) -/

/-- The variables of the loop in `generatePRData`: the index `i`, the `uint64`
seed and the result slice `res`. -/
structure GenState where
  i : Nat
  seed : Nat
  res : List Nat
deriving DecidableEq, Repr

/-- The expression `seed * 48271 % 2147483647` on `uint64`: the product wraps
modulo `2 ^ 64` before the remainder is taken. -/
def lehmerStep (seed : Nat) : Nat :=
  (seed * 48271 % 2 ^ 64) % 2147483647

/-- The conversion `byte(x)` of an unsigned integer: its low 8 bits. -/
def toByte (x : Nat) : Nat := x % 256

/-- One pass through the loop body followed by `i++`:
`seed = seed * 48271 % 2147483647; res[i] = byte(seed)`. -/
def genBody (s : GenState) : GenState :=
  let seed := lehmerStep s.seed
  { i := s.i + 1, seed := seed, res := s.res.set s.i (toByte seed) }

/-- The loop `for i := 0; i < l; i++ { ... }` started in state `s`. -/
def genLoop (l : Nat) (s : GenState) : GenState :=
  if s.i < l then genLoop l (genBody s) else s
termination_by l - s.i
decreasing_by simp only [genBody]; omega

/-- The state in which the loop is entered: `res := make([]byte, l)`,
`seed := uint64(1)`, `i := 0`. -/
def genInit (l : Nat) : GenState :=
  { i := 0, seed := 1, res := List.replicate l 0 }

/-- The function `generatePRData(l int) []byte`. A negative length makes
`make` panic, which is the result `none`. -/
def generatePRData (l : Int) : Option (List Nat) :=
  if l < 0 then none else some (genLoop l.toNat (genInit l.toNat)).res

/-- The bytes the generator is specified to produce: byte `i` is the low
8 bits of `48271 ^ (i + 1) mod 2147483647`. -/
def lehmerBytes (n : Nat) : List Nat :=
  (List.range n).map (fun i => 48271 ^ (i + 1) % 2147483647 % 256)

/-! ## The HTTP response writer -/

/-- What a handler has sent through its `http.ResponseWriter`: the status
line, once it has been written, and the body bytes. -/
structure ResponseWriter where
  status : Option Nat
  body : List Nat
deriving DecidableEq, Repr

/-- The writer a handler receives: nothing sent yet. -/
def ResponseWriter.fresh : ResponseWriter := { status := none, body := [] }

/-- The method `WriteHeader(code)`: the first call fixes the status. -/
def ResponseWriter.WriteHeader (w : ResponseWriter) (code : Nat) : ResponseWriter :=
  match w.status with
  | none => { w with status := some code }
  | some _ => w

/-- The method `Write(b)`: sends status 200 first when no status has been
written, then appends `b` to the body. -/
def ResponseWriter.Write (w : ResponseWriter) (b : List Nat) : ResponseWriter :=
  let w1 := w.WriteHeader 200
  { w1 with body := w1.body ++ b }

/-- The status the client sees once the handler has returned: 200 when the
handler never wrote one. -/
def ResponseWriter.finalStatus (w : ResponseWriter) : Nat := w.status.getD 200

/-- The bytes of an ASCII string, as `io.WriteString` and `fmt.Fprintf` send
them. -/
def strBytes (s : List Char) : List Nat := s.map Char.toNat

/-! ## strconv.ParseInt(s, 10, 64), as the fallback handler calls it -/

/-- The two errors of package `strconv`: `ErrSyntax` and `ErrRange`. -/
inductive NumError where
  | ErrSyntax
  | ErrRange
deriving DecidableEq, Repr

/-- Two's complement conversion of an integer to a signed type of `bits`
bits (`int64(x)`, `int(x)`, and negation that wraps). -/
def wrapInt (bits : Nat) (x : Int) : Int :=
  (x + 2 ^ (bits - 1)) % 2 ^ bits - 2 ^ (bits - 1)

/-- The digit value `ParseUint` assigns to a character: `c - '0'` for a
decimal digit, `lower(c) - 'a' + 10` for a letter (`lower(c) = c | 0x20`),
nothing otherwise. -/
def digitOf (c : Char) : Option Nat :=
  if 48 ≤ c.toNat ∧ c.toNat ≤ 57 then some (c.toNat - 48)
  else if 97 ≤ (c.toNat ||| 32) ∧ (c.toNat ||| 32) ≤ 122 then some ((c.toNat ||| 32) - 97 + 10)
  else none

/-- The constant `maxUint64`. -/
def maxUint64 : Nat := 2 ^ 64 - 1

/-- The digit loop of `ParseUint(s, 10, 64)` with accumulator `n`: returns
the value and the error. -/
def parseUintLoop (n : Nat) : List Char → Nat × Option NumError
  | [] => (n, none)
  | c :: cs =>
    match digitOf c with
    | none => (0, some NumError.ErrSyntax)
    | some d =>
      if d ≥ 10 then (0, some NumError.ErrSyntax)
      else if n ≥ maxUint64 / 10 + 1 then (maxUint64, some NumError.ErrRange)
      else
        let n10 := n * 10 % 2 ^ 64
        let n1 := (n10 + d) % 2 ^ 64
        if n1 < n10 ∨ n1 > maxUint64 then (maxUint64, some NumError.ErrRange)
        else parseUintLoop n1 cs

/-- The function `strconv.ParseUint(s, 10, 64)`. -/
def ParseUint (s : List Char) : Nat × Option NumError :=
  if s = [] then (0, some NumError.ErrSyntax) else parseUintLoop 0 s

/-- The function `strconv.ParseInt(s, 10, 64)`: an optional sign, then
`ParseUint`, then the range check against `1 << 63`. -/
def ParseInt (s : List Char) : Int × Option NumError :=
  match s with
  | [] => (0, some NumError.ErrSyntax)
  | c :: rest =>
    let neg := decide (c = '-')
    let s1 := if c = '+' ∨ c = '-' then rest else s
    let (un, err) := ParseUint s1
    if err ≠ none ∧ err ≠ some NumError.ErrRange then (0, err)
    else if ¬ neg ∧ un ≥ 2 ^ 63 then (2 ^ 63 - 1, some NumError.ErrRange)
    else if neg ∧ un > 2 ^ 63 then (-(2 ^ 63), some NumError.ErrRange)
    else
      let n := wrapInt 64 un
      (if neg then wrapInt 64 (-n) else n, none)

/-! ## The fallback handler (my_server.go, lines 57-75) -/

/-- The call `strings.ReplaceAll(s, "/", "")`: every slash is removed. -/
def replaceAllSlash (s : List Char) : List Char := s.filter (fun c => c ≠ '/')

/-- The constant `maxSize = 1 << 30`. -/
def maxSize : Int := 2 ^ 30

/-- What `setupHandler` registers for the pattern `"/"`. -/
inductive RootHandler where
  | fileServer (dir : List Char)
  | payload
deriving DecidableEq, Repr

/-- The choice `if len(www) > 0 { FileServer } else { payload handler }`. -/
def setupRoot (www : List Char) : RootHandler :=
  if www.length > 0 then RootHandler.fileServer www else RootHandler.payload

/-- The handler registered for `"/"` when no `www` directory is given, run on
a request with the given `RequestURI`, with the function called to produce
the payload as the parameter `gen`; `intBits` is the width of Go's `int` (32
or 64). The result is `none` when the handler panics. The request dump that
`fmt.Printf` sends to standard output is left out. -/
def payloadHandlerWith (gen : Int → Option (List Nat)) (intBits : Nat) (w : ResponseWriter)
    (requestURI : List Char) : Option ResponseWriter :=
  let (num, err) := ParseInt (replaceAllSlash requestURI)
  if err ≠ none ∨ num ≤ 0 ∨ num > maxSize then
    some (w.WriteHeader 400)
  else
    (gen (wrapInt intBits num)).map w.Write

/-- The handler registered for `"/"` when no `www` directory is given: the
payload is produced by `generatePRData`. -/
def payloadHandler (intBits : Nat) (w : ResponseWriter) (requestURI : List Char) :
    Option ResponseWriter :=
  payloadHandlerWith generatePRData intBits w requestURI

/-- The decimal representation of a natural number, most significant digit
first (what `strconv.Itoa` and Lean's `Nat.repr` print). -/
def decimal (n : Nat) : List Char :=
  if n < 10 then [Nat.digitChar n] else decimal (n / 10) ++ [Nat.digitChar (n % 10)]
termination_by n
decreasing_by omega

/-- The value of a string of decimal digits read most significant digit
first, starting from `acc`; `none` when a character is not a decimal digit. -/
def digitsValue (acc : Nat) : List Char → Option Nat
  | [] => some acc
  | c :: cs =>
    if 48 ≤ c.toNat ∧ c.toNat ≤ 57 then digitsValue (acc * 10 + (c.toNat - 48)) cs else none

/-- The integer a text denotes when it is a decimal integer: an optional
sign followed by one or more decimal digits. -/
def decimalInteger (s : List Char) : Option Int :=
  match s with
  | [] => none
  | c :: rest =>
    if c = '-' then
      (if rest = [] then none else Option.map (fun v : Nat => -(Int.ofNat v)) (digitsValue 0 rest))
    else if c = '+' then
      (if rest = [] then none else Option.map (fun v : Nat => Int.ofNat v) (digitsValue 0 rest))
    else Option.map (fun v : Nat => Int.ofNat v) (digitsValue 0 s)

/-- The request URIs the specification has the fallback route accept: a
leading slash followed by a decimal integer between 1 and `2 ^ 30`. -/
def IsSizePath (uri : List Char) : Prop :=
  ∃ rest n, uri = '/' :: rest ∧ decimalInteger rest = some n ∧ 1 ≤ n ∧ n ≤ 2 ^ 30

/-- The request URIs the code accepts: once every slash is removed, a
decimal integer between 1 and `2 ^ 30`. -/
def IsSizeText (uri : List Char) : Prop :=
  ∃ n, decimalInteger (replaceAllSlash uri) = some n ∧ 1 ≤ n ∧ n ≤ 2 ^ 30

/-! ## The bind list (my_server.go, lines 26-38 and 154-166) -/

/-- The call `strings.Join(elems, ",")`. -/
def joinComma : List (List Char) → List Char
  | [] => []
  | [x] => x
  | x :: y :: rest => x ++ ',' :: joinComma (y :: rest)

/-- The call `strings.Split(s, ",")`: the pieces of `s` between its commas,
in order; a string without a comma, the empty one included, gives one piece. -/
def splitComma : List Char → List (List Char)
  | [] => [[]]
  | c :: cs =>
    if c = ',' then [] :: splitComma cs
    else
      match splitComma cs with
      | [] => [[c]]
      | piece :: pieces => (c :: piece) :: pieces

/-- The method `binds.String`. -/
def binds_String (b : List (List Char)) : List Char := joinComma b

/-- The method `binds.Set`: the receiver is overwritten with the pieces of
`v`; the error returned is always nil. -/
def binds_Set (_b : List (List Char)) (v : List Char) : List (List Char) := splitComma v

/-- The bind list `main` works with: `bs := binds{}`, one `Set` call for every
occurrence of the `-bind` flag on the command line, in order, and then the
default `localhost:6121` when the list is still empty. -/
def effectiveBinds (bindFlags : List (List Char)) : List (List Char) :=
  let bs := bindFlags.foldl binds_Set []
  if bs.length = 0 then ["localhost:6121".toList] else bs

/-! ## The upload handler (my_server.go, lines 110-141) -/

/-- The two kinds of `multipart.File` that `FormFile` hands out: a section
reader over the part's content (the file was kept in memory or in a shared
temporary file), which has a `Size` method, and a plain `*os.File`, which has
none. Both are freshly opened, positioned at the start of the content. -/
inductive MultipartFile where
  | sectionReader (content : List Nat)
  | osFile (content : List Nat)
deriving DecidableEq, Repr

/-- The bytes of the uploaded part. -/
def MultipartFile.content : MultipartFile → List Nat
  | sectionReader c => c
  | osFile c => c

/-- The type assertion `file.(Size)` followed by `Size()`: the size when the
file has the method. -/
def MultipartFile.Size : MultipartFile → Option Int
  | sectionReader c => some c.length
  | osFile _ => none

/-- One call `file.Read(b)` on the freshly opened file: the buffer after the
call and the number of bytes read. The read copies as many bytes as the buffer
holds, or all that are left. -/
def MultipartFile.Read (f : MultipartFile) (b : List Nat) : List Nat × Nat :=
  let got := f.content.take b.length
  (got ++ b.drop got.length, got.length)

/-- The part of a request the upload handler looks at: the method, the error
returned by `r.ParseMultipartForm(1 << 30)` (`none` for nil), and what
`r.FormFile("uploadfile")` returns, an error or the opened file. -/
structure UploadRequest where
  method : String
  parseMultipartForm : Option String
  formFile : Except String MultipartFile

/-- The HTML form written by `io.WriteString` at the end of the handler. -/
def uploadForm : String :=
  "<html><body><form action=\"/demo/upload\" method=\"post\" enctype=\"multipart/form-data\">\n                <input type=\"file\" name=\"uploadfile\"><br>\n                <input type=\"submit\">\n            </form></body></html>"

/-- The lower-case digit table of package `fmt`. -/
def hexDigit (d : Nat) : Char := ("0123456789abcdef".toList).getD d '0'

/-- The verb `%x` applied to a byte array: two lower-case hexadecimal digits
for every byte, high nibble first. -/
def hexEncode (bytes : List Nat) : List Char :=
  bytes.flatMap (fun b => [hexDigit (b / 16), hexDigit (b % 16)])

/-- A value of type `[16]byte`. -/
abbrev Digest := Fin 16 → Fin 256

/-- The bytes of a digest, in order. -/
def Digest.bytes (d : Digest) : List Nat := List.ofFn (fun i => (d i).val)

/-- The buffer the handler hashes: `b := make([]byte, size); file.Read(b)`. -/
def uploadBuffer (file : MultipartFile) (size : Int) : List Nat :=
  (file.Read (List.replicate size.toNat 0)).1

/-- The handler registered for `/demo/upload`, with `md5.Sum` as the
parameter `md5Sum`. The result is the response writer after the handler
returned, together with the errors passed to `log.Printf`. -/
def uploadHandler (md5Sum : List Nat → Digest) (w : ResponseWriter) (r : UploadRequest) :
    ResponseWriter × List String :=
  let showForm (w : ResponseWriter) := w.Write (strBytes uploadForm.toList)
  if r.method = "POST" then
    match r.parseMultipartForm with
    | some err => (showForm w, [err])
    | none =>
      match r.formFile with
      | Except.error err => (showForm w, [err])
      | Except.ok file =>
        match file.Size with
        | some size =>
          let b := uploadBuffer file size
          (w.Write (strBytes (hexEncode (md5Sum b).bytes)), [])
        | none => (showForm w, ["couldn't get uploaded file size"])
  else (showForm w, [])


/-! ## The echo example (echo/echo_server.go) -/

/-- The Go error values the echo example can meet: the sentinel errors of
package `io` and any other error, named by its message. -/
inductive IOErr where
  | EOF
  | ErrUnexpectedEOF
  | ErrShortWrite
  | ErrShortBuffer
  | errInvalidWrite
  | other (msg : String)
deriving DecidableEq, Repr

/-- What the echo server does that can be seen from outside: a line printed
by `fmt.Printf("Server: Got '%s'\n", string(b))`, and bytes put on the
stream. -/
inductive Event where
  | logged (b : List Nat)
  | sent (b : List Nat)
deriving DecidableEq, Repr

/-- An `io.Writer`: from the events so far and the bytes passed to `Write`,
the events afterwards and the pair `(n, err)` that `Write` returns. -/
abbrev Writer := List Event → List Nat → List Event × Int × Option IOErr

/-- The send side of a stream on which no write fails: `Write(b)` sends `b` and
returns `(len(b), nil)`. -/
def streamWrite : Writer := fun ev b => (ev ++ [Event.sent b], (b.length : Int), none)

/-- The method `loggingWriter.Write`: print the bytes, then return what the
embedded writer's `Write` returns. -/
def loggingWriter_Write (inner : Writer) : Writer :=
  fun ev b => inner (ev ++ [Event.logged b]) b

/-- The loop of `io.Copy(dst, src)` (neither side has a `WriteTo` or
`ReadFrom` method). The list holds what the successive calls `src.Read(buf)`
return, the bytes read and the error; when it is used up the next `Read`
returns `(0, io.EOF)`. The result is the events, the count of bytes written
and the error of `io.Copy`. -/
def copyLoop (dst : Writer) :
    List (List Nat × Option IOErr) → List Event → Int → List Event × Int × Option IOErr
  | [], ev, written => (ev, written, none)
  | (chunk, er) :: rest, ev, written =>
    let afterRead (ev : List Event) (written : Int) : List Event × Int × Option IOErr :=
      match er with
      | some e => (ev, written, if e ≠ IOErr.EOF then some e else none)
      | none => copyLoop dst rest ev written
    if chunk.length > 0 then
      let (ev1, nw0, ew0) := dst ev chunk
      let nr : Int := chunk.length
      let invalid := decide (nw0 < 0 ∨ nr < nw0)
      let nw := if invalid then 0 else nw0
      let ew := if invalid ∧ ew0 = none then some IOErr.errInvalidWrite else ew0
      match ew with
      | some e => (ev1, written + nw, some e)
      | none =>
        if nr ≠ nw then (ev1, written + nw, some IOErr.ErrShortWrite)
        else afterRead ev1 (written + nw)
    else afterRead ev written

/-- What the echo server meets: the errors of `quic.ListenAddr`,
`listener.Accept` and `conn.AcceptStream` (`none` for nil), what the
successive reads of the accepted stream return, and the `Write` of the
stream. -/
structure ServerEnv where
  listenErr : Option IOErr
  acceptErr : Option IOErr
  acceptStreamErr : Option IOErr
  reads : List (List Nat × Option IOErr)
  write : Writer

/-- The function `echoServer`: the error it returns and the events it leaves;
`none` when it panics. -/
def echoServer (env : ServerEnv) : Option (Option IOErr × List Event) :=
  match env.listenErr with
  | some e => some (some e, [])
  | none =>
    match env.acceptErr with
    | some e => some (some e, [])
    | none =>
      match env.acceptStreamErr with
      | some _ => none
      | none =>
        let (ev, _, err) := copyLoop (loggingWriter_Write env.write) env.reads [] 0
        some (err, ev)

/-- The bytes put on the stream, in order. -/
def sentBytes : List Event → List Nat
  | [] => []
  | Event.sent b :: rest => b ++ sentBytes rest
  | Event.logged _ :: rest => sentBytes rest

/-- The receive side of a stream: the data arrives in the given pieces, in
order, and after the last piece every read returns the error `fin` (`EOF`
when the peer closed the stream). -/
structure RStream where
  chunks : List (List Nat)
  fin : IOErr
deriving DecidableEq, Repr

/-- One call `stream.Read(p)` with `len(p) = k`: the bytes read, the error and
the stream afterwards. A read returns at most `k` bytes of the piece at the
front and never waits for a later piece. -/
def RStream.Read (s : RStream) (k : Nat) : List Nat × Option IOErr × RStream :=
  match s.chunks with
  | [] => ([], some s.fin, s)
  | c :: cs =>
    if c.length ≤ k then (c, none, { s with chunks := cs })
    else (c.take k, none, { s with chunks := c.drop k :: cs })

/-- The buffer after `data` has been copied into it from index `n` on. -/
def overwrite (buf : List Nat) (n : Nat) (data : List Nat) : List Nat :=
  buf.take n ++ data ++ buf.drop (n + data.length)

/-- The loop `for n < min && err == nil { nn, err = r.Read(buf[n:]); n += nn }`
of `io.ReadAtLeast`, run for at most `fuel` passes; `none` when the fuel is
used up before the loop ends. -/
def readAtLeastLoop (min : Nat) :
    Nat → RStream → List Nat → Nat → Option IOErr → Option (List Nat × Nat × Option IOErr)
  | 0, _, buf, n, err => if n < min ∧ err = none then none else some (buf, n, err)
  | fuel + 1, r, buf, n, err =>
    if n < min ∧ err = none then
      let (data, e, r1) := r.Read (buf.length - n)
      readAtLeastLoop min fuel r1 (overwrite buf n data) (n + data.length) e
    else some (buf, n, err)

/-- The function `io.ReadAtLeast(r, buf, min)`: the buffer, the count and the
error. -/
def ReadAtLeast (fuel : Nat) (r : RStream) (buf : List Nat) (min : Nat) :
    Option (List Nat × Nat × Option IOErr) :=
  if buf.length < min then some (buf, 0, some IOErr.ErrShortBuffer)
  else
    match readAtLeastLoop min fuel r buf 0 none with
    | none => none
    | some (buf1, n, err) =>
      if n ≥ min then some (buf1, n, none)
      else if n > 0 ∧ err = some IOErr.EOF then some (buf1, n, some IOErr.ErrUnexpectedEOF)
      else some (buf1, n, err)

/-- The function `io.ReadFull(r, buf)`. -/
def ReadFull (fuel : Nat) (r : RStream) (buf : List Nat) :
    Option (List Nat × Nat × Option IOErr) :=
  ReadAtLeast fuel r buf buf.length

/-- The constant `message`. -/
def message : List Char := "afa papa!".toList

/-- What the echo client meets: the errors of `quic.DialAddr`,
`conn.OpenStreamSync` and `stream.Write` (`none` for nil), and the receive
side of the stream. -/
structure ClientEnv where
  dialErr : Option IOErr
  openErr : Option IOErr
  writeErr : Option IOErr
  incoming : RStream

/-- The lines the client prints: `Client: Sending '...'` and
`Client: Got '...'`. -/
inductive ClientOutput where
  | sending (msg : List Nat)
  | got (buf : List Nat)
deriving DecidableEq, Repr

/-- The function `clientMain`: the error it returns and the lines it printed.
The read loop is given one pass more than the stream has pieces, which is
always enough; `none` would mean it was not. -/
def clientMain (env : ClientEnv) : Option (Option IOErr × List ClientOutput) :=
  match env.dialErr with
  | some e => some (some e, [])
  | none =>
    match env.openErr with
    | some e => some (some e, [])
    | none =>
      let out := [ClientOutput.sending (strBytes message)]
      match env.writeErr with
      | some e => some (some e, out)
      | none =>
        let buf := List.replicate message.length 0
        match ReadFull (env.incoming.chunks.length + 1) env.incoming buf with
        | none => none
        | some (_, _, some e) => some (some e, out)
        | some (buf1, _, none) => some (none, out ++ [ClientOutput.got buf1])


/-- The events of an echo of the given reads: every non-empty chunk is
printed and then sent. -/
def echoTrace : List (List Nat) → List Event
  | [] => []
  | c :: cs =>
    if c.length > 0 then Event.logged c :: Event.sent c :: echoTrace cs else echoTrace cs


/-! ## The listeners started by `main` (my_server.go, lines 168-212)

The goroutines and the wait group are embedded as a transition system: a
state holds the program counter of `main`, the counter of the wait group and
one entry for every goroutine started; an action is one atomic step of `main`
or of one goroutine. Any interleaving of the steps is a list of actions. -/

/-- The call a goroutine blocks in: `http3.ListenAndServe(addr, certFile,
keyFile, handler)` when `-tcp` is set, and `ListenAndServeTLS(certFile,
keyFile)` on an `http3.Server` with the fields `Handler` and `Addr`
otherwise. `H` is the type of handlers. -/
inductive ServeCall (H : Type) where
  | listenAndServe (addr certFile keyFile : List Char) (handler : H)
  | serverListenAndServeTLS (handler : H) (addr certFile keyFile : List Char)

/-- The address a call listens on. -/
def ServeCall.addr {H : Type} : ServeCall H → List Char
  | listenAndServe addr _ _ _ => addr
  | serverListenAndServeTLS _ addr _ _ => addr

/-- The handler a call dispatches into. -/
def ServeCall.handler {H : Type} : ServeCall H → H
  | listenAndServe _ _ _ handler => handler
  | serverListenAndServeTLS handler _ _ _ => handler

/-- The atomic steps: one pass of the `for` loop of `main` (print, start the
goroutine); goroutine `i` comes back from its listen call with error `err`;
goroutine `i` prints the error if there is one; goroutine `i` calls
`wg.Done()`; `wg.Wait()` returns in `main`. -/
inductive Action where
  | spawn
  | ret (i : Nat) (err : Option String)
  | report (i : Nat)
  | done (i : Nat)
  | waitReturn
deriving DecidableEq, Repr

/-- The goroutine an action belongs to, `none` for a step of `main`. -/
def Action.loop : Action → Option Nat
  | spawn => none
  | ret i _ => some i
  | report i => some i
  | done i => some i
  | waitReturn => none

/-- The ASCII code of the lower-case hexadecimal digit of value `x`: 48 to 57
for `0` to `9`, 97 to 102 for `a` to `f`. -/
def hexCode (x : Nat) : Nat := if x < 10 then 48 + x else 87 + x

/-- A digest function for examples: on the input `abc` the MD5 digest of
`abc`, on every other input the MD5 digest of the empty input (both from the
test suite of RFC 1321). -/
def sampleDigest (b : List Nat) : Digest := fun i =>
  if b = [97, 98, 99] then
    ([144, 1, 80, 152, 60, 210, 79, 176, 214, 150, 63, 125, 40, 225, 127, 114] :
      List (Fin 256)).getD i.val 0
  else
    ([212, 29, 140, 217, 143, 0, 178, 4, 233, 128, 9, 152, 236, 248, 66, 126] :
      List (Fin 256)).getD i.val 0


/-- The chunks the copy loop reads: what the successive reads return, up to
and including the first read that returns an error. -/
def readChunks : List (List Nat × Option IOErr) → List (List Nat)
  | [] => []
  | (c, none) :: rest => c :: readChunks rest
  | (c, some _) :: _ => [c]

/-- The error the copy ends with: the first error a read returns, unless it is
`io.EOF`; nil when the reads end with `io.EOF`. -/
def readsError : List (List Nat × Option IOErr) → Option IOErr
  | [] => none
  | (_, none) :: rest => readsError rest
  | (_, some e) :: _ => if e = IOErr.EOF then none else some e


/-! # Theorems -/

/-! ### Facts about the generator -/

theorem lehmerStep_exact (s : Nat) (h : s < 2147483647) :
    lehmerStep s = s * 48271 % 2147483647 := by
  unfold lehmerStep
  rw [Nat.mod_eq_of_lt (a := s * 48271)]
  have : s * 48271 < 2147483647 * 48271 := Nat.mul_lt_mul_of_pos_right h (by norm_num)
  have h2 : (2147483647 : Nat) * 48271 < 2 ^ 64 := by norm_num
  omega

theorem lehmerStep_lt (s : Nat) : lehmerStep s < 2147483647 := by
  unfold lehmerStep
  exact Nat.mod_lt _ (by norm_num)

theorem lehmerStep_pos (s : Nat) (h0 : 0 < s) (h : s < 2147483647) :
    0 < lehmerStep s := by
  rw [lehmerStep_exact s h]
  rcases Nat.eq_zero_or_pos (s * 48271 % 2147483647) with hz | hp
  · exfalso
    have hdvd : 2147483647 ∣ s * 48271 := Nat.dvd_of_mod_eq_zero hz
    have hco : Nat.Coprime 2147483647 48271 := by norm_num
    have hs : 2147483647 ∣ s := hco.dvd_of_dvd_mul_right hdvd
    have := Nat.le_of_dvd h0 hs
    omega
  · exact hp

theorem lehmerStep_iterate (k : Nat) :
    lehmerStep^[k] 1 = 48271 ^ k % 2147483647 := by
  induction k with
  | zero => norm_num
  | succ k ih =>
    rw [Function.iterate_succ_apply', ih,
      lehmerStep_exact _ (Nat.mod_lt _ (by norm_num)), pow_succ, Nat.mod_mul_mod]

theorem lehmerStep_iterate_range (k : Nat) :
    0 < lehmerStep^[k] 1 ∧ lehmerStep^[k] 1 < 2147483647 := by
  induction k with
  | zero => norm_num
  | succ k ih =>
    rw [Function.iterate_succ_apply']
    exact ⟨lehmerStep_pos _ ih.1 ih.2, lehmerStep_lt _⟩

theorem genBody_iterate_i (k : Nat) (s : GenState) : (genBody^[k] s).i = s.i + k := by
  induction k generalizing s with
  | zero => rfl
  | succ k ih => rw [Function.iterate_succ_apply, ih]; simp only [genBody]; omega

theorem genBody_iterate_seed (k : Nat) (s : GenState) :
    (genBody^[k] s).seed = lehmerStep^[k] s.seed := by
  induction k generalizing s with
  | zero => rfl
  | succ k ih => rw [Function.iterate_succ_apply, ih, Function.iterate_succ_apply]; rfl

theorem genLoop_eq_iterate (l : Nat) (s : GenState) (h : s.i ≤ l) :
    genLoop l s = genBody^[l - s.i] s := by
  generalize hd : l - s.i = d
  induction d generalizing s with
  | zero =>
    rw [genLoop, if_neg (by omega)]; rfl
  | succ d ih =>
    rw [genLoop, if_pos (by omega), Function.iterate_succ_apply]
    have h1 : (genBody s).i = s.i + 1 := rfl
    exact ih (genBody s) (by omega) (by omega)

theorem genBody_iterate_length (k : Nat) (s : GenState) :
    (genBody^[k] s).res.length = s.res.length := by
  induction k generalizing s with
  | zero => rfl
  | succ k ih => rw [Function.iterate_succ_apply, ih]; simp [genBody]

theorem genBody_iterate_res (k : Nat) (s : GenState) (j : Nat) :
    (genBody^[k] s).res[j]? =
      if s.i ≤ j ∧ j < s.i + k ∧ j < s.res.length
      then some (toByte (lehmerStep^[j - s.i + 1] s.seed)) else s.res[j]? := by
  induction k generalizing s with
  | zero =>
    have : ¬ (s.i ≤ j ∧ j < s.i + 0 ∧ j < s.res.length) := by omega
    rw [if_neg this]; rfl
  | succ k ih =>
    rw [Function.iterate_succ_apply, ih]
    have hi : (genBody s).i = s.i + 1 := rfl
    have hs : (genBody s).seed = lehmerStep s.seed := rfl
    have hr : (genBody s).res = s.res.set s.i (toByte (lehmerStep s.seed)) := rfl
    rw [hi, hs, hr, List.length_set]
    by_cases hj : j = s.i
    · subst hj
      rw [if_neg (by omega)]
      by_cases hlen : s.i < s.res.length
      · rw [if_pos ⟨le_refl _, by omega, hlen⟩]
        simp [hlen]
      · have hle := Nat.le_of_not_lt hlen
        rw [if_neg (by omega), List.getElem?_eq_none (by rw [List.length_set]; exact hle),
          List.getElem?_eq_none hle]
    · rw [List.getElem?_set_ne (Ne.symm hj)]
      by_cases hc : s.i + 1 ≤ j ∧ j < s.i + 1 + k ∧ j < s.res.length
      · rw [if_pos hc, if_pos ⟨by omega, by omega, hc.2.2⟩]
        have : j - s.i + 1 = (j - (s.i + 1) + 1) + 1 := by omega
        rw [this, Function.iterate_succ_apply (n := j - (s.i + 1) + 1)]
      · rw [if_neg hc, if_neg (by omega)]

theorem genLoop_res (n : Nat) : (genLoop n (genInit n)).res = lehmerBytes n := by
  rw [genLoop_eq_iterate n (genInit n) (Nat.zero_le _)]
  apply List.ext_getElem?
  intro j
  rw [genBody_iterate_res]
  simp only [genInit, List.length_replicate, Nat.sub_zero, Nat.zero_add, Nat.zero_le, true_and,
    and_self, lehmerBytes]
  by_cases hj : j < n
  · rw [if_pos hj, lehmerStep_iterate]
    simp [hj, toByte]
  · have hle := Nat.le_of_not_lt hj
    rw [if_neg hj, List.getElem?_eq_none (by rw [List.length_replicate]; exact hle),
      List.getElem?_eq_none (by rw [List.length_map, List.length_range]; exact hle)]

theorem generatePRData_ofNat (n : Nat) : generatePRData (n : Int) = some (lehmerBytes n) := by
  unfold generatePRData
  rw [if_neg (by omega)]
  simp only [Int.toNat_ofNat, genLoop_res]

/-! ### Facts about the parser -/

theorem digitOf_of_digit (c : Char) (h : 48 ≤ c.toNat ∧ c.toNat ≤ 57) :
    digitOf c = some (c.toNat - 48) := by
  unfold digitOf
  rw [if_pos h]

theorem digitOf_lt_ten (c : Char) (d : Nat) (h : digitOf c = some d) (hd : d < 10) :
    (48 ≤ c.toNat ∧ c.toNat ≤ 57) ∧ d = c.toNat - 48 := by
  unfold digitOf at h
  by_cases h1 : 48 ≤ c.toNat ∧ c.toNat ≤ 57
  · rw [if_pos h1] at h
    exact ⟨h1, (Option.some.inj h).symm⟩
  · rw [if_neg h1] at h
    by_cases h2 : 97 ≤ (c.toNat ||| 32) ∧ (c.toNat ||| 32) ≤ 122
    · rw [if_pos h2] at h
      have := Option.some.inj h
      omega
    · rw [if_neg h2] at h
      cases h

theorem parseUintLoop_sound (cs : List Char) (n v : Nat)
    (h : parseUintLoop n cs = (v, none)) : digitsValue n cs = some v := by
  induction cs generalizing n with
  | nil =>
    simp only [parseUintLoop, Prod.mk.injEq, and_true] at h
    simp [digitsValue, h]
  | cons c cs ih =>
    rw [parseUintLoop] at h
    cases hd : digitOf c with
    | none => rw [hd] at h; simp at h
    | some d =>
      rw [hd] at h
      simp only [] at h
      by_cases h10 : d ≥ 10
      · rw [if_pos h10] at h; simp at h
      · rw [if_neg h10] at h
        by_cases hcut : n ≥ maxUint64 / 10 + 1
        · rw [if_pos hcut] at h; simp at h
        · rw [if_neg hcut] at h
          by_cases hov : (n * 10 % 2 ^ 64 + d) % 2 ^ 64 < n * 10 % 2 ^ 64 ∨
              (n * 10 % 2 ^ 64 + d) % 2 ^ 64 > maxUint64
          · rw [if_pos hov] at h; simp at h
          · rw [if_neg hov] at h
            obtain ⟨hc, hdv⟩ := digitOf_lt_ten c d hd (by omega)
            have hval : (n * 10 % 2 ^ 64 + d) % 2 ^ 64 = n * 10 + (c.toNat - 48) := by
              simp only [maxUint64] at hcut hov
              omega
            rw [digitsValue, if_pos hc, ← hval]
            exact ih _ h

theorem digitsValue_ge (cs : List Char) (n v : Nat) (h : digitsValue n cs = some v) :
    n ≤ v := by
  induction cs generalizing n with
  | nil => simp only [digitsValue, Option.some.injEq] at h; omega
  | cons c cs ih =>
    rw [digitsValue] at h
    by_cases hc : 48 ≤ c.toNat ∧ c.toNat ≤ 57
    · rw [if_pos hc] at h
      have := ih _ h
      omega
    · rw [if_neg hc] at h; cases h

theorem parseUintLoop_complete (cs : List Char) (n v : Nat)
    (h : digitsValue n cs = some v) (hv : v < 2 ^ 64) : parseUintLoop n cs = (v, none) := by
  induction cs generalizing n with
  | nil =>
    simp only [digitsValue, Option.some.injEq] at h
    simp [parseUintLoop, h]
  | cons c cs ih =>
    rw [digitsValue] at h
    by_cases hc : 48 ≤ c.toNat ∧ c.toNat ≤ 57
    · rw [if_pos hc] at h
      have hge := digitsValue_ge _ _ _ h
      rw [parseUintLoop, digitOf_of_digit c hc]
      simp only []
      rw [if_neg (by omega), if_neg (by simp only [maxUint64]; omega)]
      have hval : (n * 10 % 2 ^ 64 + (c.toNat - 48)) % 2 ^ 64 = n * 10 + (c.toNat - 48) := by
        omega
      rw [if_neg (by simp only [maxUint64]; omega), hval]
      exact ih _ h
    · rw [if_neg hc] at h; cases h

theorem parseUintLoop_range (cs : List Char) (n v : Nat)
    (h : parseUintLoop n cs = (v, some NumError.ErrRange)) : v = maxUint64 := by
  induction cs generalizing n with
  | nil => simp [parseUintLoop] at h
  | cons c cs ih =>
    rw [parseUintLoop] at h
    cases hd : digitOf c with
    | none => rw [hd] at h; simp at h
    | some d =>
      rw [hd] at h
      simp only [] at h
      by_cases h10 : d ≥ 10
      · rw [if_pos h10] at h; simp at h
      · rw [if_neg h10] at h
        by_cases hcut : n ≥ maxUint64 / 10 + 1
        · rw [if_pos hcut] at h
          simp only [Prod.mk.injEq, and_true] at h
          exact h.symm
        · rw [if_neg hcut] at h
          by_cases hov : (n * 10 % 2 ^ 64 + d) % 2 ^ 64 < n * 10 % 2 ^ 64 ∨
              (n * 10 % 2 ^ 64 + d) % 2 ^ 64 > maxUint64
          · rw [if_pos hov] at h
            simp only [Prod.mk.injEq, and_true] at h
            exact h.symm
          · rw [if_neg hov] at h
            exact ih _ h

theorem wrapInt_of_small (bits : Nat) (x : Int) (hb : bits = 32 ∨ bits = 64)
    (h0 : 0 ≤ x) (h1 : x ≤ 2 ^ 30) : wrapInt bits x = x := by
  unfold wrapInt
  rcases hb with hb | hb <;> subst hb <;> norm_num <;> omega

theorem ParseUint_ok (s : List Char) (un : Nat) (h : ParseUint s = (un, none)) :
    s ≠ [] ∧ digitsValue 0 s = some un := by
  unfold ParseUint at h
  by_cases hs : s = []
  · rw [if_pos hs] at h; simp at h
  · rw [if_neg hs] at h
    exact ⟨hs, parseUintLoop_sound s 0 un h⟩

theorem ParseUint_range (s : List Char) (un : Nat)
    (h : ParseUint s = (un, some NumError.ErrRange)) : un = maxUint64 := by
  unfold ParseUint at h
  by_cases hs : s = []
  · rw [if_pos hs] at h; simp at h
  · rw [if_neg hs] at h
    exact parseUintLoop_range s 0 un h

theorem ParseInt_sound (s : List Char) (n : Int) (h : ParseInt s = (n, none)) (hn : 1 ≤ n) :
    decimalInteger s = some n := by
  cases s with
  | nil => simp [ParseInt] at h
  | cons c rest =>
    unfold ParseInt at h
    simp only [] at h
    cases hpu : ParseUint (if c = '+' ∨ c = '-' then rest else c :: rest) with
    | mk un err =>
      rw [hpu] at h
      simp only [] at h
      cases err with
      | some e =>
        cases e with
        | ErrSyntax => simp at h
        | ErrRange =>
          have hun := ParseUint_range _ _ hpu
          subst hun
          by_cases hneg : c = '-'
          · simp [hneg, maxUint64] at h
          · simp [hneg, maxUint64] at h
      | none =>
        obtain ⟨hne, hdv⟩ := ParseUint_ok _ _ hpu
        simp only [ne_eq, not_true_eq_false, false_and, if_false, decide_eq_true_eq] at h
        by_cases hneg : c = '-'
        · exfalso
          simp only [hneg, not_true_eq_false, false_and, if_false, true_and, if_true] at h
          by_cases hbig : un > 2 ^ 63
          · rw [if_pos hbig] at h; simp at h
          · rw [if_neg hbig] at h
            simp only [Prod.mk.injEq, and_true] at h
            have hle : (un : Int) ≤ 2 ^ 63 := by
              have : un ≤ 2 ^ 63 := Nat.le_of_not_lt hbig
              exact_mod_cast this
            have h0 : (0 : Int) ≤ un := Int.ofNat_nonneg un
            unfold wrapInt at h
            norm_num at h
            omega
        · simp only [hneg, not_false_eq_true, true_and, false_and, if_false] at h
          by_cases hbig : un ≥ 2 ^ 63
          · rw [if_pos hbig] at h; simp at h
          · rw [if_neg hbig] at h
            simp only [Prod.mk.injEq, and_true] at h
            have hlt : (un : Int) < 2 ^ 63 := by
              have : un < 2 ^ 63 := Nat.lt_of_not_le hbig
              exact_mod_cast this
            have h0 : (0 : Int) ≤ un := Int.ofNat_nonneg un
            have hval : (un : Int) = n := by
              unfold wrapInt at h
              norm_num at h
              omega
            unfold decimalInteger
            simp only [hneg, if_false]
            by_cases hplus : c = '+'
            · simp only [hplus, true_or, if_true] at hne hdv ⊢
              rw [if_neg hne, hdv, Option.map_some', Int.ofNat_eq_coe, hval]
            · simp only [hplus, hneg, or_self, if_false] at hne hdv ⊢
              rw [hdv, Option.map_some', Int.ofNat_eq_coe, hval]

theorem ParseUint_complete (s : List Char) (v : Nat) (hs : s ≠ [])
    (h : digitsValue 0 s = some v) (hv : v < 2 ^ 64) : ParseUint s = (v, none) := by
  unfold ParseUint
  rw [if_neg hs]
  exact parseUintLoop_complete s 0 v h hv

theorem ParseInt_complete (s : List Char) (n : Int) (h : decimalInteger s = some n)
    (hn : 1 ≤ n) (hmax : n ≤ 2 ^ 30) : ParseInt s = (n, none) := by
  cases s with
  | nil => simp [decimalInteger] at h
  | cons c rest =>
    unfold decimalInteger at h
    simp only [] at h
    by_cases hneg : c = '-'
    · exfalso
      rw [if_pos hneg] at h
      by_cases hr : rest = []
      · rw [if_pos hr] at h; cases h
      · rw [if_neg hr] at h
        cases hdv : digitsValue 0 rest with
        | none => rw [hdv] at h; cases h
        | some v =>
          rw [hdv, Option.map_some', Int.ofNat_eq_coe] at h
          have := Option.some.inj h
          have h0 : (0 : Int) ≤ v := Int.ofNat_nonneg v
          omega
    · rw [if_neg hneg] at h
      have key : ∀ s1 : List Char, s1 ≠ [] →
          Option.map (fun v : Nat => Int.ofNat v) (digitsValue 0 s1) = some n →
          (if c = '+' ∨ c = '-' then rest else c :: rest) = s1 →
          ParseInt (c :: rest) = (n, none) := by
        intro s1 hs1 hmap hsel
        cases hdv : digitsValue 0 s1 with
        | none => rw [hdv] at hmap; cases hmap
        | some v =>
          rw [hdv, Option.map_some', Int.ofNat_eq_coe] at hmap
          have hvn : (v : Int) = n := Option.some.inj hmap
          have hv30 : v ≤ 2 ^ 30 := by
            have : (v : Int) ≤ 2 ^ 30 := by omega
            exact_mod_cast this
          have hpu := ParseUint_complete s1 v hs1 hdv
            (lt_of_le_of_lt hv30 (by norm_num))
          unfold ParseInt
          simp only []
          rw [hsel, hpu]
          simp only [ne_eq, not_true_eq_false, false_and, if_false, decide_eq_true_eq, hneg,
            not_false_eq_true, true_and]
          rw [if_neg (by have : (2 : Nat) ^ 30 < 2 ^ 63 := by norm_num
                         omega)]
          have hw : wrapInt 64 (v : Int) = n := by
            rw [wrapInt_of_small 64 v (Or.inr rfl) (Int.ofNat_nonneg v) (by omega), hvn]
          rw [hw]
      by_cases hplus : c = '+'
      · rw [if_pos hplus] at h
        by_cases hr : rest = []
        · rw [if_pos hr] at h; cases h
        · rw [if_neg hr] at h
          exact key rest hr h (by rw [if_pos (Or.inl hplus)])
      · rw [if_neg hplus] at h
        exact key (c :: rest) (List.cons_ne_nil _ _) h
          (by rw [if_neg (by rintro (h1 | h1) <;> contradiction)])

theorem payloadHandlerWith_accept (gen : Int → Option (List Nat)) (bits : Nat)
    (hb : bits = 32 ∨ bits = 64) (w : ResponseWriter) (uri : List Char) (n : Nat)
    (h : decimalInteger (replaceAllSlash uri) = some (n : Int)) (h1 : 1 ≤ n) (h2 : n ≤ 2 ^ 30) :
    payloadHandlerWith gen bits w uri = (gen (n : Int)).map w.Write := by
  have h2i : (n : Int) ≤ 2 ^ 30 := by exact_mod_cast h2
  have h1i : (1 : Int) ≤ n := by exact_mod_cast h1
  have hp := ParseInt_complete _ _ h h1i h2i
  unfold payloadHandlerWith
  rw [hp]
  simp only [ne_eq, not_true_eq_false, false_or, maxSize]
  rw [if_neg (by omega), wrapInt_of_small bits n hb (by omega) h2i]

theorem payloadHandlerWith_reject (gen : Int → Option (List Nat)) (bits : Nat)
    (w : ResponseWriter) (uri : List Char) (h : ¬ IsSizeText uri) :
    payloadHandlerWith gen bits w uri = some (w.WriteHeader 400) := by
  unfold payloadHandlerWith
  cases hp : ParseInt (replaceAllSlash uri) with
  | mk num err =>
    simp only []
    by_cases hc : err ≠ none ∨ num ≤ 0 ∨ num > maxSize
    · rw [if_pos hc]
    · exfalso
      apply h
      simp only [not_or, ne_eq, not_not, not_le, not_lt, maxSize] at hc
      obtain ⟨he, h0, hm⟩ := hc
      subst he
      exact ⟨num, ParseInt_sound _ _ hp (by omega), by omega, hm⟩

theorem payloadHandler_accept (bits : Nat) (hb : bits = 32 ∨ bits = 64) (w : ResponseWriter)
    (uri : List Char) (n : Nat)
    (h : decimalInteger (replaceAllSlash uri) = some (n : Int)) (h1 : 1 ≤ n) (h2 : n ≤ 2 ^ 30) :
    payloadHandler bits w uri = some (w.Write (lehmerBytes n)) := by
  unfold payloadHandler
  rw [payloadHandlerWith_accept _ bits hb w uri n h h1 h2, generatePRData_ofNat,
    Option.map_some']

theorem payloadHandler_reject (bits : Nat) (w : ResponseWriter) (uri : List Char)
    (h : ¬ IsSizeText uri) : payloadHandler bits w uri = some (w.WriteHeader 400) :=
  payloadHandlerWith_reject _ bits w uri h

/-- The two outcomes of the handler: a request URI that is not a size is
answered with 400 without a call of `gen`; for any other the text parses to a
number `m` between 1 and `2 ^ 30`, `gen` is called with `m` and its result is
written. -/
theorem payloadHandlerWith_cases (gen : Int → Option (List Nat)) (bits : Nat)
    (hb : bits = 32 ∨ bits = 64) (w : ResponseWriter) (uri : List Char) :
    (¬ IsSizeText uri ∧ payloadHandlerWith gen bits w uri = some (w.WriteHeader 400)) ∨
    (∃ m : Nat, 1 ≤ m ∧ m ≤ 2 ^ 30 ∧ decimalInteger (replaceAllSlash uri) = some (m : Int) ∧
      ParseInt (replaceAllSlash uri) = ((m : Int), none) ∧
      wrapInt bits (m : Int) = (m : Int) ∧
      payloadHandlerWith gen bits w uri = (gen (m : Int)).map w.Write) := by
  by_cases h : IsSizeText uri
  · right
    obtain ⟨m, hm, h1, h2⟩ := h
    lift m to Nat using (by omega)
    have h1n : 1 ≤ m := by exact_mod_cast h1
    have h2n : m ≤ 2 ^ 30 := by exact_mod_cast h2
    exact ⟨m, h1n, h2n, hm, ParseInt_complete _ _ hm h1 h2,
      wrapInt_of_small bits m hb (by omega) h2,
      payloadHandlerWith_accept gen bits hb w uri m hm h1n h2n⟩
  · exact Or.inl ⟨h, payloadHandlerWith_reject gen bits w uri h⟩

/-! ### Facts about decimal representations -/

theorem digitChar_toNat (d : Nat) (h : d < 10) : (Nat.digitChar d).toNat = 48 + d := by
  interval_cases d <;> rfl

theorem digitsValue_append (xs ys : List Char) (acc : Nat) :
    digitsValue acc (xs ++ ys) = (digitsValue acc xs).bind (fun a => digitsValue a ys) := by
  induction xs generalizing acc with
  | nil => rfl
  | cons c cs ih =>
    rw [List.cons_append, digitsValue, digitsValue]
    by_cases hc : 48 ≤ c.toNat ∧ c.toNat ≤ 57
    · rw [if_pos hc, if_pos hc, ih]
    · rw [if_neg hc, if_neg hc]; rfl

theorem digitsValue_digitChar (acc d : Nat) (h : d < 10) :
    digitsValue acc [Nat.digitChar d] = some (acc * 10 + d) := by
  have ht := digitChar_toNat d h
  rw [digitsValue, if_pos (by omega), digitsValue, ht]
  congr 1
  omega

theorem digitsValue_decimal (n : Nat) : digitsValue 0 (decimal n) = some n := by
  induction n using Nat.strong_induction_on with
  | _ n ih =>
    rw [decimal]
    by_cases h : n < 10
    · rw [if_pos h, digitsValue_digitChar 0 n h]
      congr 1
      omega
    · rw [if_neg h, digitsValue_append, ih (n / 10) (by omega), Option.some_bind,
        digitsValue_digitChar _ _ (Nat.mod_lt _ (by norm_num))]
      congr 1
      omega

theorem digitsValue_all_digits (cs : List Char) (acc v : Nat)
    (h : digitsValue acc cs = some v) : ∀ c ∈ cs, 48 ≤ c.toNat ∧ c.toNat ≤ 57 := by
  induction cs generalizing acc with
  | nil => intro c hc; cases hc
  | cons c cs ih =>
    rw [digitsValue] at h
    by_cases hc : 48 ≤ c.toNat ∧ c.toNat ≤ 57
    · rw [if_pos hc] at h
      intro x hx
      rcases List.mem_cons.mp hx with hx | hx
      · rw [hx]; exact hc
      · exact ih _ h x hx
    · rw [if_neg hc] at h; cases h

theorem decimal_ne_nil (n : Nat) : decimal n ≠ [] := by
  rw [decimal]
  by_cases h : n < 10
  · rw [if_pos h]; exact List.cons_ne_nil _ _
  · rw [if_neg h]; simp

theorem replaceAllSlash_decimal (n : Nat) : replaceAllSlash ('/' :: decimal n) = decimal n := by
  unfold replaceAllSlash
  rw [List.filter_cons_of_neg (by simp), List.filter_eq_self]
  intro c hc
  have := digitsValue_all_digits _ _ _ (digitsValue_decimal n) c hc
  have hne : c ≠ '/' := by
    intro h
    rw [h] at this
    revert this
    decide
  simpa using hne

theorem decimalInteger_decimal (n : Nat) : decimalInteger (decimal n) = some (n : Int) := by
  have hv := digitsValue_decimal n
  have hall := digitsValue_all_digits _ _ _ hv
  cases hd : decimal n with
  | nil => exact absurd hd (decimal_ne_nil n)
  | cons c rest =>
    rw [hd] at hv hall
    have hc := hall c (List.mem_cons_self _ _)
    have hm : c ≠ '-' := by
      intro h
      rw [h] at hc
      revert hc
      decide
    have hp : c ≠ '+' := by
      intro h
      rw [h] at hc
      revert hc
      decide
    unfold decimalInteger
    simp only []
    rw [if_neg hm, if_neg hp, hv, Option.map_some', Int.ofNat_eq_coe]

theorem toDigitsCore_eq_decimal (fuel n : Nat) (acc : List Char) (h : n < fuel) :
    Nat.toDigitsCore 10 fuel n acc = decimal n ++ acc := by
  induction fuel generalizing n acc with
  | zero => omega
  | succ fuel ih =>
    rw [Nat.toDigitsCore, decimal]
    by_cases h0 : n / 10 = 0
    · rw [if_pos h0, if_pos (by omega)]
      have : n % 10 = n := by omega
      rw [this]; rfl
    · rw [if_neg h0, if_neg (by omega), ih (n / 10) _ (by omega)]
      simp

theorem decimal_eq_repr (n : Nat) : decimal n = (Nat.repr n).toList := by
  rw [Nat.repr, Nat.toDigits, toDigitsCore_eq_decimal _ _ _ (Nat.lt_succ_self n),
    List.append_nil]
  rfl

/-! ### Facts about the bind list -/

theorem splitComma_ne_nil (v : List Char) : splitComma v ≠ [] := by
  cases v with
  | nil => simp [splitComma]
  | cons c cs =>
    rw [splitComma]
    by_cases hc : c = ','
    · rw [if_pos hc]; exact List.cons_ne_nil _ _
    · rw [if_neg hc]
      cases splitComma cs <;> exact List.cons_ne_nil _ _

theorem joinComma_cons_head (c : Char) (p : List Char) (ps : List (List Char)) :
    joinComma ((c :: p) :: ps) = c :: joinComma (p :: ps) := by
  cases ps with
  | nil => rfl
  | cons q qs => rfl

theorem joinComma_nil_head (ps : List (List Char)) (h : ps ≠ []) :
    joinComma ([] :: ps) = ',' :: joinComma ps := by
  cases ps with
  | nil => exact absurd rfl h
  | cons q qs => rfl

theorem joinComma_splitComma (v : List Char) : joinComma (splitComma v) = v := by
  induction v with
  | nil => rfl
  | cons c cs ih =>
    rw [splitComma]
    by_cases hc : c = ','
    · rw [if_pos hc, joinComma_nil_head _ (splitComma_ne_nil cs), ih, hc]
    · rw [if_neg hc]
      cases hs : splitComma cs with
      | nil => exact absurd hs (splitComma_ne_nil cs)
      | cons piece pieces =>
        rw [hs] at ih
        simp only []
        rw [joinComma_cons_head, ih]

theorem splitComma_no_comma (v : List Char) : ∀ p ∈ splitComma v, ',' ∉ p := by
  induction v with
  | nil =>
    intro p hp
    simp only [splitComma, List.mem_singleton] at hp
    rw [hp]
    exact List.not_mem_nil _
  | cons c cs ih =>
    intro p hp
    rw [splitComma] at hp
    by_cases hc : c = ','
    · rw [if_pos hc] at hp
      rcases List.mem_cons.mp hp with h | h
      · rw [h]; exact List.not_mem_nil _
      · exact ih p h
    · rw [if_neg hc] at hp
      cases hs : splitComma cs with
      | nil => exact absurd hs (splitComma_ne_nil cs)
      | cons piece pieces =>
        rw [hs] at hp ih
        simp only [] at hp
        rcases List.mem_cons.mp hp with h | h
        · rw [h]
          intro hmem
          rcases List.mem_cons.mp hmem with h1 | h1
          · exact hc h1.symm
          · exact ih piece (List.mem_cons_self _ _) h1
        · exact ih p (List.mem_cons_of_mem _ h)

theorem splitComma_joinComma (parts : List (List Char)) (hne : parts ≠ [])
    (hno : ∀ p ∈ parts, ',' ∉ p) : splitComma (joinComma parts) = parts := by
  induction parts with
  | nil => exact absurd rfl hne
  | cons p ps ihp =>
    have hps : ∀ q ∈ ps, ',' ∉ q := fun q hq => hno q (List.mem_cons_of_mem _ hq)
    have hp : ',' ∉ p := hno p (List.mem_cons_self _ _)
    clear hno hne
    induction p with
    | nil =>
      cases ps with
      | nil => rfl
      | cons q qs =>
        rw [joinComma_nil_head _ (List.cons_ne_nil _ _), splitComma, if_pos rfl,
          ihp (List.cons_ne_nil _ _) hps]
    | cons c p ih =>
      have hc : c ≠ ',' := fun h => hp (by rw [h]; exact List.mem_cons_self _ _)
      have hp2 : ',' ∉ p := fun h => hp (List.mem_cons_of_mem _ h)
      rw [joinComma_cons_head, splitComma, if_neg hc, ih hp2]

theorem foldl_binds_Set_append (vs : List (List Char)) (v : List Char) :
    (vs ++ [v]).foldl binds_Set [] = splitComma v := by
  rw [List.foldl_append]
  rfl

/-! ### Facts about the upload handler -/

theorem hexDigit_mem (d : Nat) (h : d < 16) : hexDigit d ∈ "0123456789abcdef".toList := by
  interval_cases d <;> decide

theorem hexEncode_length (bytes : List Nat) : (hexEncode bytes).length = 2 * bytes.length := by
  induction bytes with
  | nil => rfl
  | cons b bs ih =>
    simp only [hexEncode, List.flatMap_cons, List.length_append, List.length_cons,
      List.length_nil] at ih ⊢
    omega

theorem hexEncode_mem (bytes : List Nat) (hb : ∀ b ∈ bytes, b < 256) :
    ∀ c ∈ hexEncode bytes, c ∈ "0123456789abcdef".toList := by
  intro c hc
  simp only [hexEncode, List.mem_flatMap, List.mem_cons, List.mem_singleton,
    List.not_mem_nil, or_false] at hc
  obtain ⟨b, hbm, h | h⟩ := hc
  · rw [h]
    exact hexDigit_mem _ (by have := hb b hbm; omega)
  · rw [h]
    exact hexDigit_mem _ (Nat.mod_lt _ (by norm_num))

theorem hexEncode_cons (b : Nat) (bs : List Nat) :
    hexEncode (b :: bs) = hexDigit (b / 16) :: hexDigit (b % 16) :: hexEncode bs := by
  simp [hexEncode, List.flatMap_cons]

theorem hexEncode_getElem?_even (bytes : List Nat) (i : Nat) :
    (hexEncode bytes)[2 * i]? = (bytes[i]?).map (fun b => hexDigit (b / 16)) := by
  induction bytes generalizing i with
  | nil => simp [hexEncode]
  | cons b bs ih =>
    rw [hexEncode_cons]
    cases i with
    | zero => simp
    | succ i =>
      have h2 : 2 * (i + 1) = 2 * i + 1 + 1 := by omega
      rw [h2, List.getElem?_cons_succ, List.getElem?_cons_succ, List.getElem?_cons_succ, ih]

theorem hexEncode_getElem?_odd (bytes : List Nat) (i : Nat) :
    (hexEncode bytes)[2 * i + 1]? = (bytes[i]?).map (fun b => hexDigit (b % 16)) := by
  induction bytes generalizing i with
  | nil => simp [hexEncode]
  | cons b bs ih =>
    rw [hexEncode_cons]
    cases i with
    | zero => simp
    | succ i =>
      have h2 : 2 * (i + 1) + 1 = (2 * i + 1) + 1 + 1 := by omega
      rw [h2, List.getElem?_cons_succ, List.getElem?_cons_succ, List.getElem?_cons_succ, ih]

theorem hexDigit_toNat (d : Nat) (h : d < 16) : (hexDigit d).toNat = hexCode d := by
  interval_cases d <;> rfl

theorem Digest.bytes_getElem? (d : Digest) (i : Fin 16) : d.bytes[i.val]? = some (d i).val := by
  unfold Digest.bytes
  rw [List.getElem?_eq_getElem (by rw [List.length_ofFn]; exact i.isLt), List.getElem_ofFn]

theorem hexBody_getElem? (d : Digest) (i : Fin 16) :
    (strBytes (hexEncode d.bytes))[2 * i.val]? = some (hexCode ((d i).val / 16)) ∧
    (strBytes (hexEncode d.bytes))[2 * i.val + 1]? = some (hexCode ((d i).val % 16)) := by
  have hlt : (d i).val < 256 := (d i).isLt
  unfold strBytes
  rw [List.getElem?_map, List.getElem?_map, hexEncode_getElem?_even, hexEncode_getElem?_odd,
    Digest.bytes_getElem?]
  simp only [Option.map_some']
  rw [hexDigit_toNat _ (by omega), hexDigit_toNat _ (Nat.mod_lt _ (by norm_num))]
  exact ⟨rfl, rfl⟩

theorem Digest.bytes_length (d : Digest) : d.bytes.length = 16 := by
  simp [Digest.bytes]

theorem Digest.bytes_lt (d : Digest) : ∀ b ∈ d.bytes, b < 256 := by
  intro b hb
  simp only [Digest.bytes, List.mem_ofFn] at hb
  obtain ⟨i, hi⟩ := hb
  rw [← hi]
  exact (d i).isLt

set_option maxRecDepth 8000 in
theorem uploadForm_length : uploadForm.toList.length = 214 := by
  decide

set_option maxRecDepth 8000 in
theorem uploadForm_names_field : "name=\"uploadfile\"".toList <:+: uploadForm.toList :=
  ⟨(uploadForm.toList).take 120, (uploadForm.toList).drop 137, by decide⟩

set_option maxRecDepth 16000 in
theorem formBody_decode : (strBytes uploadForm.toList).map Char.ofNat = uploadForm.toList := by
  decide

set_option maxRecDepth 16000 in
theorem formBody_ascii : ∀ b ∈ strBytes uploadForm.toList, b < 128 := by
  decide

set_option maxRecDepth 16000 in
theorem formBody_names_field :
    [110, 97, 109, 101, 61, 34, 117, 112, 108, 111, 97, 100, 102, 105, 108, 101, 34] <:+:
      strBytes uploadForm.toList :=
  ⟨(strBytes uploadForm.toList).take 120, (strBytes uploadForm.toList).drop 137, by decide⟩

theorem uploadBuffer_sectionReader (c : List Nat) :
    uploadBuffer (MultipartFile.sectionReader c) (c.length : Int) = c := by
  simp [uploadBuffer, MultipartFile.Read, MultipartFile.content]


/-! ### Facts about the echo example -/

theorem sentBytes_echoTrace (chunks : List (List Nat)) :
    sentBytes (echoTrace chunks) = chunks.flatten := by
  induction chunks with
  | nil => rfl
  | cons c cs ih =>
    rw [echoTrace, List.flatten_cons]
    by_cases hc : c.length > 0
    · rw [if_pos hc, sentBytes, sentBytes, ih]
    · rw [if_neg hc, ih]
      have : c = [] := List.length_eq_zero.mp (by omega)
      rw [this, List.nil_append]

theorem copyLoop_echo (chunks : List (List Nat)) (ev : List Event) (written : Int) :
    copyLoop (loggingWriter_Write streamWrite) (chunks.map (fun c => (c, none))) ev written =
      (ev ++ echoTrace chunks, written + (chunks.flatten.length : Int), none) := by
  induction chunks generalizing ev written with
  | nil => simp [copyLoop, echoTrace]
  | cons c cs ih =>
    rw [List.map_cons, copyLoop, echoTrace, List.flatten_cons]
    by_cases hc : c.length > 0
    · have hinv : ¬ (((c.length : Nat) : Int) < 0 ∨ ((c.length : Nat) : Int) < (c.length : Int)) := by
        omega
      simp only [hc, if_true, loggingWriter_Write, streamWrite, hinv, decide_False, if_false,
        Bool.false_eq_true, false_and, ne_eq, not_true_eq_false]
      rw [ih]
      simp only [List.append_assoc, List.singleton_append, List.length_append, Nat.cast_add,
        Prod.mk.injEq, true_and, and_true]
      exact ⟨rfl, by omega⟩
    · have : c = [] := List.length_eq_zero.mp (by omega)
      subst this
      simp only [List.length_nil, gt_iff_lt, lt_self_iff_false, if_false, List.nil_append]
      exact ih ev written

theorem copyLoop_echo_reads (reads : List (List Nat × Option IOErr)) (ev : List Event)
    (written : Int) :
    copyLoop (loggingWriter_Write streamWrite) reads ev written =
      (ev ++ echoTrace (readChunks reads),
       written + ((readChunks reads).flatten.length : Int), readsError reads) := by
  induction reads generalizing ev written with
  | nil => simp [copyLoop, echoTrace, readChunks, readsError]
  | cons r rest ih =>
    obtain ⟨c, er⟩ := r
    have hinv : ¬ (((c.length : Nat) : Int) < 0 ∨ ((c.length : Nat) : Int) < (c.length : Int)) := by
      omega
    cases er with
    | none =>
      rw [copyLoop, readChunks, readsError, echoTrace, List.flatten_cons]
      by_cases hc : c.length > 0
      · simp only [hc, if_true, loggingWriter_Write, streamWrite, hinv, decide_False, if_false,
          Bool.false_eq_true, false_and, ne_eq, not_true_eq_false]
        rw [ih]
        simp only [List.append_assoc, List.singleton_append, List.length_append, Nat.cast_add,
          Prod.mk.injEq, and_true]
        exact ⟨rfl, by omega⟩
      · have : c = [] := List.length_eq_zero.mp (by omega)
        subst this
        simp only [List.length_nil, gt_iff_lt, lt_self_iff_false, if_false, List.nil_append]
        exact ih ev written
    | some e =>
      rw [copyLoop, readChunks, readsError, echoTrace, echoTrace]
      have hflat : ([c] : List (List Nat)).flatten = c := by simp
      rw [hflat]
      have herr : (if e ≠ IOErr.EOF then some e else none) =
          (if e = IOErr.EOF then none else some e) := by
        by_cases he : e = IOErr.EOF
        · rw [if_neg (not_not.mpr he), if_pos he]
        · rw [if_pos he, if_neg he]
      by_cases hc : c.length > 0
      · simp only [hc, if_true, loggingWriter_Write, streamWrite, hinv, decide_False, if_false,
          Bool.false_eq_true, false_and, ne_eq, not_true_eq_false]
        simp only [ne_eq] at herr
        rw [herr]
        simp
      · have : c = [] := List.length_eq_zero.mp (by omega)
        subst this
        simp only [List.length_nil, gt_iff_lt, lt_self_iff_false, if_false, List.append_nil,
          Nat.cast_zero, Int.add_zero]
        simp only [ne_eq] at herr
        rw [herr]

theorem readChunks_map_none (chunks : List (List Nat)) :
    readChunks (chunks.map (fun c => (c, none))) = chunks := by
  induction chunks with
  | nil => rfl
  | cons c cs ih => rw [List.map_cons, readChunks, ih]

theorem readsError_map_none (chunks : List (List Nat)) :
    readsError (chunks.map (fun c => (c, none))) = none := by
  induction chunks with
  | nil => rfl
  | cons c cs ih => rw [List.map_cons, readsError, ih]

theorem readChunks_map_none_eof (chunks : List (List Nat)) (last : List Nat) :
    readChunks (chunks.map (fun c => (c, none)) ++ [(last, some IOErr.EOF)]) =
      chunks ++ [last] := by
  induction chunks with
  | nil => rfl
  | cons c cs ih => rw [List.map_cons, List.cons_append, readChunks, ih, List.cons_append]

theorem readsError_map_none_eof (chunks : List (List Nat)) (last : List Nat) :
    readsError (chunks.map (fun c => (c, none)) ++ [(last, some IOErr.EOF)]) = none := by
  induction chunks with
  | nil => rfl
  | cons c cs ih => rw [List.map_cons, List.cons_append, readsError, ih]

theorem overwrite_length (buf data : List Nat) (n : Nat) (h : n + data.length ≤ buf.length) :
    (overwrite buf n data).length = buf.length := by
  simp only [overwrite, List.length_append, List.length_take, List.length_drop]
  omega

theorem overwrite_take (buf data : List Nat) (n : Nat) (h : n + data.length ≤ buf.length) :
    (overwrite buf n data).take (n + data.length) = buf.take n ++ data := by
  unfold overwrite
  apply List.take_left'
  simp only [List.length_append, List.length_take]
  omega

theorem overwrite_drop (buf data : List Nat) (n j : Nat) (h : n + data.length ≤ buf.length) :
    (overwrite buf n data).drop (n + data.length + j) = buf.drop (n + data.length + j) := by
  unfold overwrite
  have hlen : (buf.take n ++ data).length = n + data.length := by
    simp only [List.length_append, List.length_take]
    omega
  rw [← hlen, List.drop_append, hlen, List.drop_drop]

theorem readAtLeastLoop_exit (m fuel : Nat) (r : RStream) (buf : List Nat) (n : Nat)
    (err : Option IOErr) (h : ¬ (n < m ∧ err = none)) :
    readAtLeastLoop m fuel r buf n err = some (buf, n, err) := by
  cases fuel <;> rw [readAtLeastLoop, if_neg h]


theorem readAtLeastLoop_spec (m : Nat) (fin : IOErr) (chunks : List (List Nat)) :
    ∀ (fuel n : Nat) (buf : List Nat), buf.length = m → n ≤ m → chunks.length + 1 ≤ fuel →
    readAtLeastLoop m fuel { chunks := chunks, fin := fin } buf n none =
      some (if m ≤ n + chunks.flatten.length
        then (buf.take n ++ chunks.flatten.take (m - n), m, none)
        else (buf.take n ++ chunks.flatten ++ buf.drop (n + chunks.flatten.length),
              n + chunks.flatten.length, some fin)) := by
  induction chunks with
  | nil =>
    intro fuel n buf hlen hn hfuel
    by_cases hlt : n < m
    · obtain ⟨f, rfl⟩ : ∃ f, fuel = f + 1 := ⟨fuel - 1, by omega⟩
      rw [readAtLeastLoop, if_pos ⟨hlt, rfl⟩]
      simp only [RStream.Read]
      rw [readAtLeastLoop_exit _ _ _ _ _ _ (by simp)]
      simp only [List.flatten_nil, List.length_nil, Nat.add_zero, overwrite]
      rw [if_neg (by omega)]
    · have hnm : n = m := by omega
      subst hnm
      rw [readAtLeastLoop_exit _ _ _ _ _ _ (by omega)]
      simp only [List.flatten_nil, List.length_nil, Nat.add_zero, le_refl, if_true,
        List.take_nil, List.append_nil]
      rw [← hlen, List.take_length]
  | cons c cs ih =>
    intro fuel n buf hlen hn hfuel
    rw [List.flatten_cons]
    by_cases hlt : n < m
    · obtain ⟨f, rfl⟩ : ∃ f, fuel = f + 1 := ⟨fuel - 1, by omega⟩
      rw [readAtLeastLoop, if_pos ⟨hlt, rfl⟩]
      simp only [RStream.Read]
      by_cases hck : c.length ≤ buf.length - n
      · rw [if_pos hck]
        simp only []
        have hfit : n + c.length ≤ buf.length := by omega
        rw [ih f (n + c.length) (overwrite buf n c)
          (by rw [overwrite_length _ _ _ hfit]; exact hlen) (by omega)
          (by simp only [List.length_cons] at hfuel; omega)]
        rw [overwrite_take _ _ _ hfit, overwrite_drop _ _ _ _ hfit]
        by_cases hfull : m ≤ n + c.length + cs.flatten.length
        · rw [if_pos hfull, if_pos (by rw [List.length_append]; omega)]
          have hsplit : m - n = c.length + (m - (n + c.length)) := by omega
          rw [hsplit, List.take_append, List.append_assoc]
        · rw [if_neg hfull, if_neg (by rw [List.length_append]; omega)]
          simp only [List.length_append, List.append_assoc, Nat.add_assoc]
      · rw [if_neg hck]
        simp only []
        have hk : (c.take (buf.length - n)).length = buf.length - n := by
          rw [List.length_take]; omega
        rw [readAtLeastLoop_exit _ _ _ _ _ _ (by rw [hk]; omega)]
        rw [if_pos (by rw [List.length_append]; omega), hk]
        have hnm : n + (buf.length - n) = m := by omega
        rw [hnm]
        have hov : overwrite buf n (List.take (buf.length - n) c) =
            buf.take n ++ c.take (buf.length - n) := by
          unfold overwrite
          rw [hk, hnm, ← hlen, List.drop_length, List.append_nil]
        rw [hov, ← hlen, List.take_append_of_le_length (by omega)]
    · have hnm : n = m := by omega
      subst hnm
      rw [readAtLeastLoop_exit _ _ _ _ _ _ (by omega)]
      rw [if_pos (by omega), Nat.sub_self, List.take_zero, List.append_nil, ← hlen,
        List.take_length]

theorem ReadFull_spec (r : RStream) (buf : List Nat) (fuel : Nat)
    (hfuel : r.chunks.length + 1 ≤ fuel) :
    ReadFull fuel r buf =
      some (if buf.length ≤ r.chunks.flatten.length
        then (r.chunks.flatten.take buf.length, buf.length, none)
        else (r.chunks.flatten ++ buf.drop r.chunks.flatten.length, r.chunks.flatten.length,
              some (if r.chunks.flatten.length > 0 ∧ r.fin = IOErr.EOF
                then IOErr.ErrUnexpectedEOF else r.fin))) := by
  unfold ReadFull ReadAtLeast
  rw [if_neg (by omega)]
  have h := readAtLeastLoop_spec buf.length r.fin r.chunks fuel 0 buf rfl (Nat.zero_le _) hfuel
  simp only [Nat.zero_add, List.take_zero, List.nil_append, Nat.sub_zero] at h
  have hr : ({ chunks := r.chunks, fin := r.fin } : RStream) = r := rfl
  rw [hr] at h
  rw [h]
  by_cases hfull : buf.length ≤ r.chunks.flatten.length
  · simp only [hfull, if_true, ge_iff_le, le_refl]
  · simp only [hfull, if_false, ge_iff_le]
    by_cases hpos : r.chunks.flatten.length > 0 ∧ r.fin = IOErr.EOF
    · rw [if_pos ⟨hpos.1, by rw [hpos.2]⟩, if_pos hpos]
    · rw [if_neg hpos, if_neg]
      intro hcon
      exact hpos ⟨hcon.1, Option.some.inj hcon.2⟩


/-! ### Facts about the listeners -/

/-- C1: for every length `n`, `generatePRData(n)` returns `n` bytes, byte `i`
being the low 8 bits of `48271 ^ (i + 1) mod 2147483647`, which is the
`i + 1`-th iterate of `seed = seed * 48271 mod 2147483647` started from 1;
the result for 0 is empty and the first byte for 10 is 143. -/
theorem generatePRData_spec (n : Nat) :
    ∃ bs, generatePRData (n : Int) = some bs ∧ bs.length = n ∧
      (∀ i, i < n → bs[i]? = some (48271 ^ (i + 1) % 2147483647 % 256)) ∧
      (∀ i, i < n → bs[i]? = some ((fun s => s * 48271 % 2147483647)^[i + 1] 1 % 256)) ∧
      (n = 0 → bs = []) ∧ (n = 10 → bs.head? = some 143) := by
  have hget : ∀ i, i < n → (lehmerBytes n)[i]? = some (48271 ^ (i + 1) % 2147483647 % 256) := by
    intro i hi
    simp [lehmerBytes, hi]
  have hexact : ∀ k, (fun s => s * 48271 % 2147483647)^[k] 1 = 48271 ^ k % 2147483647 := by
    intro k
    induction k with
    | zero => norm_num
    | succ k ih => rw [Function.iterate_succ_apply', ih, pow_succ, Nat.mod_mul_mod]
  refine ⟨lehmerBytes n, generatePRData_ofNat n, by simp [lehmerBytes], hget, ?_, ?_, ?_⟩
  · intro i hi
    rw [hget i hi, hexact]
  · intro h0
    subst h0
    rfl
  · intro h10
    subst h10
    rw [List.head?_eq_getElem?, hget 0 (by norm_num)]
    norm_num

/-- C1, at `n = 10`: the generator returns ten bytes, the first of which
is 143. -/
theorem generatePRData_spec_witness :
    ∃ bs, generatePRData 10 = some bs ∧ bs.length = 10 ∧ bs.head? = some 143 := by
  obtain ⟨bs, h, hlen, -, -, -, h10⟩ := generatePRData_spec 10
  exact ⟨bs, h, hlen, h10 rfl⟩

/-- C10: the loop of `generatePRData` runs its body `l` times, and in the
state reached after any number `k` of passes the seed lies in
`1..2147483646`, the product `seed * 48271` is below `2 ^ 64`, and the next
seed computed on `uint64` is the exact `seed * 48271 mod 2147483647`, again
in `1..2147483646`. -/
theorem generatePRData_seed_in_range (l k : Nat) :
    genLoop l (genInit l) = genBody^[l] (genInit l) ∧
    1 ≤ (genBody^[k] (genInit l)).seed ∧
    (genBody^[k] (genInit l)).seed ≤ 2147483646 ∧
    (genBody^[k] (genInit l)).seed * 48271 < 2 ^ 64 ∧
    (genBody (genBody^[k] (genInit l))).seed =
      (genBody^[k] (genInit l)).seed * 48271 % 2147483647 ∧
    1 ≤ (genBody (genBody^[k] (genInit l))).seed ∧
    (genBody (genBody^[k] (genInit l))).seed ≤ 2147483646 := by
  have hloop := genLoop_eq_iterate l (genInit l) (Nat.zero_le _)
  have hseed : (genBody^[k] (genInit l)).seed = lehmerStep^[k] 1 := genBody_iterate_seed k _
  have hnext : (genBody (genBody^[k] (genInit l))).seed =
      lehmerStep (genBody^[k] (genInit l)).seed := rfl
  obtain ⟨hpos, hlt⟩ := lehmerStep_iterate_range k
  rw [hnext, hseed]
  have hstep_pos := lehmerStep_pos _ hpos hlt
  have hstep_lt := lehmerStep_lt (lehmerStep^[k] 1)
  have hmul : lehmerStep^[k] 1 * 48271 < 2147483647 * 48271 :=
    Nat.mul_lt_mul_of_pos_right hlt (by norm_num)
  have hbound : (2147483647 : Nat) * 48271 < 2 ^ 64 := by norm_num
  refine ⟨hloop, hpos, by omega, by omega, lehmerStep_exact _ hlt, hstep_pos, by omega⟩

/-- C2: with no static-content root the pattern `/` is served by the payload
handler, and for `0 < n <= 2 ^ 30` the request URI `/` followed by the
decimal representation of `n` is answered with status 200 and the `n` bytes
of `generatePRData(n)`; the parsed value is `n` and its conversion to `int`
(32 or 64 bits wide) is still `n`. On every request URI the handler either
answers 400 with an empty body, or its text without slashes is a decimal
integer `m` with `1 <= m <= 2 ^ 30` that was parsed as `m`, converted to `int`
without loss and answered with status 200 and the `m` bytes of
`generatePRData(m)`; it never panics. The generator
is called with no other length: the response is the same for any two
generators that agree on the lengths `1..2 ^ 30`. -/
theorem payload_route_serves_size (bits n : Nat) (hb : bits = 32 ∨ bits = 64)
    (h0 : 0 < n) (hn : n ≤ 2 ^ 30) :
    setupRoot [] = RootHandler.payload ∧
    decimal n = (Nat.repr n).toList ∧
    ParseInt (replaceAllSlash ('/' :: decimal n)) = ((n : Int), none) ∧
    wrapInt bits (n : Int) = (n : Int) ∧
    (∃ w, payloadHandler bits ResponseWriter.fresh ('/' :: decimal n) = some w ∧
      w.status = some 200 ∧ w.finalStatus = 200 ∧ w.body.length = n ∧
      generatePRData (n : Int) = some w.body) ∧
    (∀ uri, ∃ w, payloadHandler bits ResponseWriter.fresh uri = some w) ∧
    (∀ uri,
      payloadHandler bits ResponseWriter.fresh uri = some { status := some 400, body := [] } ∨
      ∃ m : Nat, 1 ≤ m ∧ m ≤ 2 ^ 30 ∧
        decimalInteger (replaceAllSlash uri) = some (m : Int) ∧
        ParseInt (replaceAllSlash uri) = ((m : Int), none) ∧
        wrapInt bits (m : Int) = (m : Int) ∧
        ∃ bytes, generatePRData (wrapInt bits (m : Int)) = some bytes ∧ bytes.length = m ∧
          payloadHandler bits ResponseWriter.fresh uri =
            some { status := some 200, body := bytes }) ∧
    (∀ (gen1 gen2 : Int → Option (List Nat)) (uri : List Char),
      (∀ l : Int, 1 ≤ l → l ≤ 2 ^ 30 → gen1 l = gen2 l) →
      payloadHandlerWith gen1 bits ResponseWriter.fresh uri =
        payloadHandlerWith gen2 bits ResponseWriter.fresh uri) := by
  have hni : (n : Int) ≤ 2 ^ 30 := by exact_mod_cast hn
  have h1i : (1 : Int) ≤ n := by exact_mod_cast h0
  have hdec : decimalInteger (replaceAllSlash ('/' :: decimal n)) = some (n : Int) := by
    rw [replaceAllSlash_decimal, decimalInteger_decimal]
  have hlen : ∀ m : Nat, (lehmerBytes m).length = m := by
    intro m
    simp [lehmerBytes]
  refine ⟨rfl, decimal_eq_repr n, ParseInt_complete _ _ hdec h1i hni,
    wrapInt_of_small bits n hb (by omega) hni, ?_, ?_, ?_, ?_⟩
  · refine ⟨_, payloadHandler_accept bits hb _ _ n hdec h0 hn, rfl, rfl, ?_, ?_⟩
    · simp [ResponseWriter.Write, ResponseWriter.WriteHeader, ResponseWriter.fresh, lehmerBytes]
    · rw [generatePRData_ofNat]
      simp [ResponseWriter.Write, ResponseWriter.WriteHeader, ResponseWriter.fresh]
  · intro uri
    by_cases h : IsSizeText uri
    · obtain ⟨m, hm, h1, h2⟩ := h
      lift m to Nat using (by omega)
      exact ⟨_, payloadHandler_accept bits hb _ uri m hm (by exact_mod_cast h1)
        (by exact_mod_cast h2)⟩
    · exact ⟨_, payloadHandler_reject bits _ uri h⟩
  · intro uri
    rcases payloadHandlerWith_cases generatePRData bits hb ResponseWriter.fresh uri with
      ⟨-, h400⟩ | ⟨m, h1, h2, hdm, hparse, hwrap, hrun⟩
    · exact Or.inl h400
    · refine Or.inr ⟨m, h1, h2, hdm, hparse, hwrap, lehmerBytes m, ?_, hlen m, ?_⟩
      · rw [hwrap, generatePRData_ofNat]
      · unfold payloadHandler
        rw [hrun, generatePRData_ofNat]
        rfl
  · intro gen1 gen2 uri hagree
    by_cases h : IsSizeText uri
    · obtain ⟨m, hm, h1, h2⟩ := h
      lift m to Nat using (by omega)
      rw [payloadHandlerWith_accept gen1 bits hb _ uri m hm (by exact_mod_cast h1)
          (by exact_mod_cast h2),
        payloadHandlerWith_accept gen2 bits hb _ uri m hm (by exact_mod_cast h1)
          (by exact_mod_cast h2), hagree (m : Int) h1 h2]
    · rw [payloadHandlerWith_reject gen1 bits _ uri h,
        payloadHandlerWith_reject gen2 bits _ uri h]

/-- C2, at `n = 5` on a 64-bit platform, together with the request URIs `/0`
and `/1073741825`, which are answered with 400 and no body. -/
theorem payload_route_serves_size_witness :
    (∃ w, payloadHandler 64 ResponseWriter.fresh ('/' :: decimal 5) = some w ∧
      w.status = some 200 ∧ w.body.length = 5) ∧
    payloadHandler 64 ResponseWriter.fresh ['/', '0'] =
      some { status := some 400, body := [] } ∧
    payloadHandler 64 ResponseWriter.fresh
        ['/', '1', '0', '7', '3', '7', '4', '1', '8', '2', '5'] =
      some { status := some 400, body := [] } := by
  obtain ⟨-, -, -, -, ⟨w, h, hs, -, hl, -⟩, -, hcases, -⟩ :=
    payload_route_serves_size 64 5 (Or.inr rfl) (by decide) (by norm_num)
  refine ⟨⟨w, h, hs, hl⟩, ?_, ?_⟩
  · rcases hcases ['/', '0'] with h400 | ⟨m, h1, -, -, hparse, -⟩
    · exact h400
    · exfalso
      have hval : ParseInt (replaceAllSlash ['/', '0']) = (0, none) := by decide
      rw [hval] at hparse
      have := (Prod.mk.inj hparse).1
      omega
  · rcases hcases ['/', '1', '0', '7', '3', '7', '4', '1', '8', '2', '5'] with
      h400 | ⟨m, -, h2, -, hparse, -⟩
    · exact h400
    · exfalso
      have hval : ParseInt (replaceAllSlash
          ['/', '1', '0', '7', '3', '7', '4', '1', '8', '2', '5']) = (1073741825, none) := by
        decide
      rw [hval] at hparse
      have := (Prod.mk.inj hparse).1
      have h2i : (m : Int) ≤ 2 ^ 30 := by exact_mod_cast h2
      omega

/-- C3 as stated fails: the request URI `/1/2` is not a slash followed by
a decimal integer, yet the payload handler removes both slashes, reads 12 and
answers with status 200 and 12 generated bytes. -/
theorem payload_route_inner_slash :
    ¬ IsSizePath ['/', '1', '/', '2'] ∧
    payloadHandler 64 ResponseWriter.fresh ['/', '1', '/', '2'] =
      some { status := some 200,
             body := [143, 226, 70, 125, 241, 35, 81, 89, 195, 127, 35, 111] } := by
  constructor
  · rintro ⟨rest, n, huri, hdec, -, -⟩
    have hrest : rest = ['1', '/', '2'] := (List.cons.inj huri).2.symm
    subst hrest
    revert hdec
    simp [decimalInteger, digitsValue]
  · rw [payloadHandler_accept 64 (Or.inr rfl) _ _ 12 (by decide) (by norm_num) (by norm_num)]
    simp [ResponseWriter.Write, ResponseWriter.WriteHeader, ResponseWriter.fresh, lehmerBytes,
      List.range, List.range.loop]

/-- C3, amended: every request URI that, once all its slashes are removed,
is not a decimal integer between 1 and `2 ^ 30` is answered by the payload
handler with status 400 and an empty body. -/
theorem payload_route_rejects (bits : Nat) (uri : List Char) (h : ¬ IsSizeText uri) :
    ∃ w, payloadHandler bits ResponseWriter.fresh uri = some w ∧
      w.status = some 400 ∧ w.finalStatus = 400 ∧ w.body = [] := by
  exact ⟨_, payloadHandler_reject bits _ uri h, rfl, rfl, rfl⟩

/-- C3, amended, at the request URI made of a slash and the text `-5`. -/
theorem payload_route_rejects_witness :
    ¬ IsSizeText ['/', '-', '5'] ∧
    ∃ w, payloadHandler 64 ResponseWriter.fresh ['/', '-', '5'] = some w ∧
      w.status = some 400 ∧ w.finalStatus = 400 ∧ w.body = [] := by
  have hno : ¬ IsSizeText ['/', '-', '5'] := by
    rintro ⟨n, hdec, h1, -⟩
    have hval : decimalInteger (replaceAllSlash ['/', '-', '5']) = some (-5) := by decide
    rw [hval] at hdec
    have := Option.some.inj hdec
    omega
  exact ⟨hno, payload_route_rejects 64 _ hno⟩

/-- C9: the bind list `main` works with is never empty; without a `-bind`
flag it is the single address `localhost:6121`; when the last `-bind` value is
`v` it is `binds.Set` of `v`, which is the one non-empty list of comma-free
pieces that joined by commas give `v`, so `binds.String` returns `v`. -/
theorem effectiveBinds_spec (bindFlags b : List (List Char)) (v : List Char) :
    effectiveBinds bindFlags ≠ [] ∧
    effectiveBinds [] = [['l', 'o', 'c', 'a', 'l', 'h', 'o', 's', 't', ':', '6', '1', '2', '1']] ∧
    effectiveBinds (bindFlags ++ [v]) = binds_Set b v ∧
    binds_Set b v ≠ [] ∧
    (∀ p ∈ binds_Set b v, ',' ∉ p) ∧
    binds_String (binds_Set b v) = v ∧
    (∀ parts : List (List Char), parts ≠ [] → (∀ p ∈ parts, ',' ∉ p) →
      binds_String parts = v → binds_Set b v = parts) := by
  refine ⟨?_, rfl, ?_, splitComma_ne_nil v, splitComma_no_comma v, joinComma_splitComma v, ?_⟩
  · unfold effectiveBinds
    simp only []
    by_cases h : (List.foldl binds_Set [] bindFlags).length = 0
    · rw [if_pos h]; exact List.cons_ne_nil _ _
    · rw [if_neg h]
      intro hnil
      rw [hnil] at h
      exact h rfl
  · unfold effectiveBinds
    simp only []
    rw [foldl_binds_Set_append, if_neg]
    · rfl
    · intro h
      exact splitComma_ne_nil v (List.length_eq_zero.mp h)
  · intro parts hne hno hjoin
    unfold binds_Set
    rw [← hjoin]
    exact splitComma_joinComma parts hne hno

/-- C9, at the flag value `a:1,b:2`. -/
theorem effectiveBinds_spec_witness :
    effectiveBinds [['a', ':', '1', ',', 'b', ':', '2']] = [['a', ':', '1'], ['b', ':', '2']] ∧
    binds_String [['a', ':', '1'], ['b', ':', '2']] = ['a', ':', '1', ',', 'b', ':', '2'] := by
  obtain ⟨-, -, hset, -, -, hstr, huniq⟩ :=
    effectiveBinds_spec [] [] ['a', ':', '1', ',', 'b', ':', '2']
  have hparts := huniq [['a', ':', '1'], ['b', ':', '2']] (by decide) (by decide) (by decide)
  rw [hparts] at hset hstr
  exact ⟨hset, hstr⟩

/-- C4: a POST whose form parses and whose `uploadfile` part, with content
`c`, is a file that reports its size `L`: the size is the length of `c`, the
buffer the handler hashes is exactly `c`, and the whole response is status 200
with a body of 32 bytes in which the bytes `2 i` and `2 i + 1` are the ASCII
codes of the lower-case hexadecimal digits of the high and the low half of
byte `i` of `md5.Sum(c)`; it is not the HTML form, and nothing is logged. -/
theorem upload_returns_digest (md5Sum : List Nat → Digest) (r : UploadRequest)
    (file : MultipartFile) (c : List Nat) (L : Int)
    (hm : r.method = "POST") (hp : r.parseMultipartForm = none)
    (hf : r.formFile = Except.ok file) (hc : file.content = c) (hs : file.Size = some L) :
    L = c.length ∧ uploadBuffer file L = c ∧
    uploadHandler md5Sum ResponseWriter.fresh r =
      ({ status := some 200, body := strBytes (hexEncode (md5Sum c).bytes) }, []) ∧
    (hexEncode (md5Sum c).bytes).length = 32 ∧
    (∀ ch ∈ hexEncode (md5Sum c).bytes, ch ∈ "0123456789abcdef".toList) ∧
    strBytes (hexEncode (md5Sum c).bytes) ≠ strBytes uploadForm.toList ∧
    (∃ w, uploadHandler md5Sum ResponseWriter.fresh r = (w, []) ∧
      w.status = some 200 ∧ w.body.length = 32 ∧
      ∀ i : Fin 16,
        w.body[2 * i.val]? = some (hexCode ((md5Sum c i).val / 16)) ∧
        w.body[2 * i.val + 1]? = some (hexCode ((md5Sum c i).val % 16))) := by
  cases file with
  | osFile c0 => cases hs
  | sectionReader c0 =>
    have hc0 : c0 = c := hc
    subst hc0
    have hL : L = c0.length := (Option.some.inj hs).symm
    subst hL
    have hlen : (hexEncode (md5Sum c0).bytes).length = 32 := by
      rw [hexEncode_length, Digest.bytes_length]
    have hrun : uploadHandler md5Sum ResponseWriter.fresh r =
        ({ status := some 200, body := strBytes (hexEncode (md5Sum c0).bytes) }, []) := by
      unfold uploadHandler
      simp only [hm, hp, hf, if_true, MultipartFile.Size, uploadBuffer_sectionReader]
      rfl
    refine ⟨rfl, uploadBuffer_sectionReader c0, hrun, hlen,
      hexEncode_mem _ (Digest.bytes_lt _), ?_, ?_⟩
    · intro heq
      have h1 := congrArg List.length heq
      rw [strBytes, strBytes, List.length_map, List.length_map, hlen, uploadForm_length] at h1
      omega
    · refine ⟨_, hrun, rfl, ?_, fun i => hexBody_getElem? (md5Sum c0) i⟩
      show (strBytes (hexEncode (md5Sum c0).bytes)).length = 32
      rw [strBytes, List.length_map, hlen]

/-- C4, for the upload of the three bytes `abc` and for an empty upload, with
a digest function that returns their MD5 digests: the bodies are the texts
`900150983cd24fb0d6963f7d28e17f72` and `d41d8cd98f00b204e9800998ecf8427e`. -/
theorem upload_returns_digest_witness :
    uploadHandler sampleDigest ResponseWriter.fresh
      { method := "POST", parseMultipartForm := none,
        formFile := Except.ok (MultipartFile.sectionReader [97, 98, 99]) } =
      ({ status := some 200,
         body := [57, 48, 48, 49, 53, 48, 57, 56, 51, 99, 100, 50, 52, 102, 98, 48,
                  100, 54, 57, 54, 51, 102, 55, 100, 50, 56, 101, 49, 55, 102, 55, 50] }, []) ∧
    uploadHandler sampleDigest ResponseWriter.fresh
      { method := "POST", parseMultipartForm := none,
        formFile := Except.ok (MultipartFile.sectionReader []) } =
      ({ status := some 200,
         body := [100, 52, 49, 100, 56, 99, 100, 57, 56, 102, 48, 48, 98, 50, 48, 52,
                  101, 57, 56, 48, 48, 57, 57, 56, 101, 99, 102, 56, 52, 50, 55, 101] }, []) := by
  have h1 := (upload_returns_digest sampleDigest
    { method := "POST", parseMultipartForm := none,
      formFile := Except.ok (MultipartFile.sectionReader [97, 98, 99]) }
    (MultipartFile.sectionReader [97, 98, 99]) [97, 98, 99] 3 rfl rfl rfl rfl rfl).2.2.1
  have h2 := (upload_returns_digest sampleDigest
    { method := "POST", parseMultipartForm := none,
      formFile := Except.ok (MultipartFile.sectionReader []) }
    (MultipartFile.sectionReader []) [] 0 rfl rfl rfl rfl rfl).2.2.1
  have e1 : strBytes (hexEncode (sampleDigest [97, 98, 99]).bytes) =
      [57, 48, 48, 49, 53, 48, 57, 56, 51, 99, 100, 50, 52, 102, 98, 48,
       100, 54, 57, 54, 51, 102, 55, 100, 50, 56, 101, 49, 55, 102, 55, 50] := by decide
  have e2 : strBytes (hexEncode (sampleDigest []).bytes) =
      [100, 52, 49, 100, 56, 99, 100, 57, 56, 102, 48, 48, 98, 50, 48, 52,
       101, 57, 56, 48, 48, 57, 57, 56, 101, 99, 102, 56, 52, 50, 55, 101] := by decide
  rw [e1] at h1
  rw [e2] at h2
  exact ⟨h1, h2⟩

/-- C5: a request to `/demo/upload` that is not a POST, or whose form fails
to parse, or has no `uploadfile` file, or whose file has no `Size` method, is
answered with status 200 and exactly the HTML form: 214 ASCII bytes that
spell the form of the source and contain `name="uploadfile"`; no digest is
written. A request that is not a POST logs nothing; a POST logs the error of
`ParseMultipartForm`, or else the error of `FormFile`, or else, for a file
without a size, the error `couldn't get uploaded file size`. -/
theorem upload_falls_through_to_form (md5Sum : List Nat → Digest) (r : UploadRequest)
    (h : r.method ≠ "POST" ∨ (∃ e, r.parseMultipartForm = some e) ∨
      (∃ e, r.formFile = Except.error e) ∨
      (∃ f, r.formFile = Except.ok f ∧ f.Size = none)) :
    ∃ w log, uploadHandler md5Sum ResponseWriter.fresh r = (w, log) ∧
      w = { status := some 200, body := strBytes uploadForm.toList } ∧
      w.status = some 200 ∧ w.body.length = 214 ∧
      w.body.map Char.ofNat = uploadForm.toList ∧
      (∀ b ∈ w.body, b < 128) ∧
      [110, 97, 109, 101, 61, 34, 117, 112, 108, 111, 97, 100, 102, 105, 108, 101, 34] <:+:
        w.body ∧
      "name=\"uploadfile\"".toList <:+: uploadForm.toList ∧
      (r.method ≠ "POST" → log = []) ∧
      (r.method = "POST" → ∀ e, r.parseMultipartForm = some e → log = [e]) ∧
      (r.method = "POST" → r.parseMultipartForm = none →
        ∀ e, r.formFile = Except.error e → log = [e]) ∧
      (r.method = "POST" → r.parseMultipartForm = none →
        (∃ f, r.formFile = Except.ok f ∧ f.Size = none) →
        log = ["couldn't get uploaded file size"]) := by
  have hbody : (strBytes uploadForm.toList).length = 214 := by
    rw [strBytes, List.length_map, uploadForm_length]
  have hform : (uploadHandler md5Sum ResponseWriter.fresh r).1 =
      { status := some 200, body := strBytes uploadForm.toList } := by
    unfold uploadHandler
    by_cases hm : r.method = "POST"
    · rw [if_pos hm]
      cases hp : r.parseMultipartForm with
      | some e => rfl
      | none =>
        cases hf : r.formFile with
        | error e => rfl
        | ok f =>
          cases hs : f.Size with
          | none => simp only [hs]; rfl
          | some size =>
            exfalso
            rcases h with h | ⟨e, h⟩ | ⟨e, h⟩ | ⟨g, h, hg⟩
            · exact h hm
            · rw [hp] at h; cases h
            · rw [hf] at h; cases h
            · rw [hf] at h
              cases h
              rw [hs] at hg
              cases hg
    · rw [if_neg hm]
      rfl
  refine ⟨(uploadHandler md5Sum ResponseWriter.fresh r).1,
    (uploadHandler md5Sum ResponseWriter.fresh r).2, rfl, hform, ?_, ?_, ?_, ?_, ?_,
    uploadForm_names_field, ?_, ?_, ?_, ?_⟩
  · rw [hform]
  · rw [hform]; exact hbody
  · rw [hform]; exact formBody_decode
  · rw [hform]; exact formBody_ascii
  · rw [hform]; exact formBody_names_field
  · intro hm
    unfold uploadHandler
    rw [if_neg hm]
  · intro hm e hp
    unfold uploadHandler
    rw [if_pos hm]
    simp only [hp]
  · intro hm hp e hf
    unfold uploadHandler
    rw [if_pos hm]
    simp only [hp, hf]
  · rintro hm hp ⟨f, hf, hs⟩
    unfold uploadHandler
    rw [if_pos hm]
    simp only [hp, hf, hs]

/-- C5, for a GET request and for three POST requests: one whose form does
not parse, one without the file, and one whose file is a plain `*os.File`. -/
theorem upload_falls_through_to_form_witness :
    (∃ w, uploadHandler sampleDigest ResponseWriter.fresh
        { method := "GET", parseMultipartForm := none,
          formFile := Except.error "http: no such file" } = (w, []) ∧
      w.status = some 200 ∧ w.body.length = 214 ∧
      String.mk (w.body.map Char.ofNat) =
        "<html><body><form action=\"/demo/upload\" method=\"post\" enctype=\"multipart/form-data\">\n                <input type=\"file\" name=\"uploadfile\"><br>\n                <input type=\"submit\">\n            </form></body></html>") ∧
    (∃ w, uploadHandler sampleDigest ResponseWriter.fresh
        { method := "POST",
          parseMultipartForm := some "request Content-Type isn't multipart/form-data",
          formFile := Except.error "http: no such file" } =
        (w, ["request Content-Type isn't multipart/form-data"]) ∧
      w.status = some 200 ∧ w.body.length = 214 ∧
      w.body.map Char.ofNat = uploadForm.toList) ∧
    (∃ w, uploadHandler sampleDigest ResponseWriter.fresh
        { method := "POST", parseMultipartForm := none,
          formFile := Except.error "http: no such file" } = (w, ["http: no such file"]) ∧
      w.status = some 200 ∧ w.body.length = 214 ∧
      w.body.map Char.ofNat = uploadForm.toList) ∧
    (∃ w, uploadHandler sampleDigest ResponseWriter.fresh
        { method := "POST", parseMultipartForm := none,
          formFile := Except.ok (MultipartFile.osFile [97, 98, 99]) } =
        (w, ["couldn't get uploaded file size"]) ∧
      w.status = some 200 ∧ w.body.length = 214 ∧
      w.body.map Char.ofNat = uploadForm.toList) := by
  refine ⟨?_, ?_, ?_, ?_⟩
  · obtain ⟨w, log, hrun, -, hst, hlen, hdec, -, -, -, hget, -⟩ :=
      upload_falls_through_to_form sampleDigest
        { method := "GET", parseMultipartForm := none,
          formFile := Except.error "http: no such file" } (Or.inl (by decide))
    rw [hget (by decide)] at hrun
    refine ⟨w, hrun, hst, hlen, ?_⟩
    rw [hdec]
    rfl
  · obtain ⟨w, log, hrun, -, hst, hlen, hdec, -, -, -, -, hparse, -⟩ :=
      upload_falls_through_to_form sampleDigest
        { method := "POST",
          parseMultipartForm := some "request Content-Type isn't multipart/form-data",
          formFile := Except.error "http: no such file" } (Or.inr (Or.inl ⟨_, rfl⟩))
    rw [hparse rfl _ rfl] at hrun
    exact ⟨w, hrun, hst, hlen, hdec⟩
  · obtain ⟨w, log, hrun, -, hst, hlen, hdec, -, -, -, -, -, hfile, -⟩ :=
      upload_falls_through_to_form sampleDigest
        { method := "POST", parseMultipartForm := none,
          formFile := Except.error "http: no such file" } (Or.inr (Or.inr (Or.inl ⟨_, rfl⟩)))
    rw [hfile rfl rfl _ rfl] at hrun
    exact ⟨w, hrun, hst, hlen, hdec⟩
  · obtain ⟨w, log, hrun, -, hst, hlen, hdec, -, -, -, -, -, -, hsize⟩ :=
      upload_falls_through_to_form sampleDigest
        { method := "POST", parseMultipartForm := none,
          formFile := Except.ok (MultipartFile.osFile [97, 98, 99]) }
        (Or.inr (Or.inr (Or.inr ⟨_, rfl, rfl⟩)))
    rw [hsize rfl rfl ⟨_, rfl, rfl⟩] at hrun
    exact ⟨w, hrun, hst, hlen, hdec⟩

/-- C6: `loggingWriter.Write` prints the chunk and then returns what the
underlying `Write` returns for the same bytes; with a stream on which no write
fails, the echo server, for any sequence of read results, prints and then
sends every non-empty chunk it reads, in order, the chunk that arrives
together with `io.EOF` or with an error included, and returns the read error
unless it is `io.EOF`; so the bytes sent are the bytes read. In particular it
returns nil when the reads are chunks followed by a bare end of stream or by a
last chunk that comes with `io.EOF`. When the bytes read are those of
`afa papa!`, a client receiving the bytes sent, in any pieces, gets exactly
those 9 bytes. -/
theorem echo_server_copies (reads : List (List Nat × Option IOErr))
    (chunks pieces : List (List Nat)) (last : List Nat) (inner : Writer)
    (ev : List Event) (b : List Nat) (fin : IOErr) :
    loggingWriter_Write inner ev b = inner (ev ++ [Event.logged b]) b ∧
    loggingWriter_Write streamWrite ev b =
      (ev ++ [Event.logged b, Event.sent b], (b.length : Int), none) ∧
    echoServer { listenErr := none, acceptErr := none, acceptStreamErr := none,
                 reads := reads, write := streamWrite } =
      some (readsError reads, echoTrace (readChunks reads)) ∧
    sentBytes (echoTrace (readChunks reads)) = (readChunks reads).flatten ∧
    echoServer { listenErr := none, acceptErr := none, acceptStreamErr := none,
                 reads := chunks.map (fun c => (c, none)), write := streamWrite } =
      some (none, echoTrace chunks) ∧
    sentBytes (echoTrace chunks) = chunks.flatten ∧
    echoServer { listenErr := none, acceptErr := none, acceptStreamErr := none,
                 reads := chunks.map (fun c => (c, none)) ++ [(last, some IOErr.EOF)],
                 write := streamWrite } =
      some (none, echoTrace (chunks ++ [last])) ∧
    sentBytes (echoTrace (chunks ++ [last])) = chunks.flatten ++ last ∧
    ((readChunks reads).flatten = strBytes message →
      pieces.flatten = sentBytes (echoTrace (readChunks reads)) →
      (strBytes message).length = 9 ∧
      clientMain { dialErr := none, openErr := none, writeErr := none,
                   incoming := { chunks := pieces, fin := fin } } =
        some (none, [ClientOutput.sending (strBytes message),
                     ClientOutput.got (strBytes message)])) := by
  have hserver : ∀ rs : List (List Nat × Option IOErr),
      echoServer { listenErr := none, acceptErr := none, acceptStreamErr := none,
                   reads := rs, write := streamWrite } =
        some (readsError rs, echoTrace (readChunks rs)) := by
    intro rs
    unfold echoServer
    simp only []
    rw [copyLoop_echo_reads]
    simp
  refine ⟨rfl, ?_, hserver reads, sentBytes_echoTrace _, ?_, sentBytes_echoTrace chunks, ?_,
    ?_, ?_⟩
  · simp [loggingWriter_Write, streamWrite]
  · rw [hserver, readChunks_map_none, readsError_map_none]
  · rw [hserver, readChunks_map_none_eof, readsError_map_none_eof]
  · rw [sentBytes_echoTrace]
    simp
  · intro hmsg hpieces
    rw [sentBytes_echoTrace, hmsg] at hpieces
    refine ⟨rfl, ?_⟩
    have hrf := ReadFull_spec { chunks := pieces, fin := fin }
      (List.replicate message.length 0) (pieces.length + 1) (le_refl _)
    simp only [hpieces, List.length_replicate] at hrf
    have h9 : (strBytes message).length = message.length := by simp [strBytes]
    have htake : (strBytes message).take message.length = strBytes message := by
      rw [← h9, List.take_length]
    rw [if_pos (by rw [h9]), htake] at hrf
    unfold clientMain
    simp only []
    rw [hrf]
    rfl

/-- C6, for the message read by the server as `afa` and then ` papa!`
together with `io.EOF`, and delivered to the client in one piece; and for a
read of `afa` followed by a read that returns ` pa` with a transport error. -/
theorem echo_server_copies_witness :
    echoServer { listenErr := none, acceptErr := none, acceptStreamErr := none,
                 reads := [([97, 102, 97], none),
                           ([32, 112, 97, 112, 97, 33], some IOErr.EOF)],
                 write := streamWrite } =
      some (none, [Event.logged [97, 102, 97], Event.sent [97, 102, 97],
                   Event.logged [32, 112, 97, 112, 97, 33],
                   Event.sent [32, 112, 97, 112, 97, 33]]) ∧
    echoServer { listenErr := none, acceptErr := none, acceptStreamErr := none,
                 reads := [([97, 102, 97], none),
                           ([32, 112, 97], some (IOErr.other "timeout"))],
                 write := streamWrite } =
      some (some (IOErr.other "timeout"),
            [Event.logged [97, 102, 97], Event.sent [97, 102, 97],
             Event.logged [32, 112, 97], Event.sent [32, 112, 97]]) ∧
    clientMain { dialErr := none, openErr := none, writeErr := none,
                 incoming := { chunks := [[97, 102, 97, 32, 112, 97, 112, 97, 33]],
                               fin := IOErr.EOF } } =
      some (none, [ClientOutput.sending (strBytes message),
                   ClientOutput.got (strBytes message)]) := by
  obtain ⟨-, -, hserver, -, -, -, -, -, hclient⟩ :=
    echo_server_copies [([97, 102, 97], none), ([32, 112, 97, 112, 97, 33], some IOErr.EOF)]
      [] [[97, 102, 97, 32, 112, 97, 112, 97, 33]] [] streamWrite [] [] IOErr.EOF
  obtain ⟨-, -, hfail, -⟩ :=
    echo_server_copies [([97, 102, 97], none), ([32, 112, 97], some (IOErr.other "timeout"))]
      [] [] [] streamWrite [] [] IOErr.EOF
  exact ⟨hserver, hfail, (hclient (by decide) (by decide)).2⟩

/-- C7: whatever pieces the stream delivers, `clientMain` returns; it prints
a received message only when it returns nil, and then the message is the
first `len(message)` bytes delivered; when fewer bytes arrive before the
stream ends or fails it returns a non-nil error and prints no received
message. With a successful dial, open and write the read step gives exactly
these two outcomes. -/
theorem client_reads_exactly (env : ClientEnv) :
    ∃ err out, clientMain env = some (err, out) ∧
      (env.incoming.chunks.flatten.length < message.length →
        err ≠ none ∧ ∀ buf, ClientOutput.got buf ∉ out) ∧
      (∀ buf, ClientOutput.got buf ∈ out →
        err = none ∧ buf = env.incoming.chunks.flatten.take message.length ∧
        buf.length = message.length) ∧
      (env.dialErr = none → env.openErr = none → env.writeErr = none →
        (message.length ≤ env.incoming.chunks.flatten.length →
          ReadFull (env.incoming.chunks.length + 1) env.incoming
              (List.replicate message.length 0) =
            some (env.incoming.chunks.flatten.take message.length, message.length, none) ∧
          err = none ∧
          out = [ClientOutput.sending (strBytes message),
                 ClientOutput.got (env.incoming.chunks.flatten.take message.length)]) ∧
        (env.incoming.chunks.flatten.length < message.length →
          err = some (if env.incoming.chunks.flatten.length > 0 ∧ env.incoming.fin = IOErr.EOF
            then IOErr.ErrUnexpectedEOF else env.incoming.fin) ∧
          out = [ClientOutput.sending (strBytes message)])) := by
  have hrf := ReadFull_spec env.incoming (List.replicate message.length 0)
    (env.incoming.chunks.length + 1) (le_refl _)
  rw [List.length_replicate] at hrf
  unfold clientMain
  cases hd : env.dialErr with
  | some e =>
    refine ⟨some e, [], rfl, fun _ => ⟨by simp, by simp⟩, by simp, by simp⟩
  | none =>
    cases ho : env.openErr with
    | some e =>
      refine ⟨some e, [], rfl, fun _ => ⟨by simp, by simp⟩, by simp, by simp⟩
    | none =>
      cases hw : env.writeErr with
      | some e =>
        refine ⟨some e, [ClientOutput.sending (strBytes message)], rfl,
          fun _ => ⟨by simp, by simp⟩, by simp, by simp⟩
      | none =>
        simp only []
        by_cases hfull : message.length ≤ env.incoming.chunks.flatten.length
        · rw [if_pos hfull] at hrf
          rw [hrf]
          refine ⟨none, _, rfl, fun h => absurd hfull (by omega), ?_, ?_⟩
          · intro buf hbuf
            simp only [List.singleton_append, List.mem_cons, List.mem_singleton,
              ClientOutput.got.injEq, List.not_mem_nil, or_false, false_or,
              reduceCtorEq] at hbuf
            subst hbuf
            refine ⟨rfl, rfl, ?_⟩
            rw [List.length_take]
            omega
          · intro _ _ _
            exact ⟨fun _ => ⟨rfl, rfl, rfl⟩, fun h => absurd hfull (by omega)⟩
        · rw [if_neg hfull] at hrf
          rw [hrf]
          refine ⟨_, _, rfl, fun _ => ⟨by simp, by simp⟩, by simp, ?_⟩
          intro _ _ _
          exact ⟨fun h => absurd h hfull, fun _ => ⟨rfl, rfl⟩⟩

/-- C7, for a stream that delivers `afa p` in two pieces and is then closed:
the client returns `io.ErrUnexpectedEOF`. -/
theorem client_reads_exactly_witness :
    clientMain { dialErr := none, openErr := none, writeErr := none,
                 incoming := { chunks := [[97, 102], [97, 32, 112]], fin := IOErr.EOF } } =
      some (some IOErr.ErrUnexpectedEOF, [ClientOutput.sending (strBytes message)]) := by
  obtain ⟨err, out, hrun, -, -, hok⟩ :=
    client_reads_exactly { dialErr := none, openErr := none, writeErr := none,
                           incoming := { chunks := [[97, 102], [97, 32, 112]],
                                         fin := IOErr.EOF } }
  obtain ⟨herr, hout⟩ := (hok rfl rfl rfl).2 (by decide)
  rw [hrun, herr, hout]
  rfl


end QuicServer
